import Mathlib

/-!
Shallow embedding of the RCPSP/t tournament heuristic solver
(`src/Solver.cc`, `PrSolver::solve`) together with proofs about the
claims of the specification.

Modelling conventions:
* C++ `int` values are modelled as `ℤ` (the derived state `ef`, `ls`,
  `schedule`, `available`, finish times can hold `-1` sentinels or be
  decremented below zero), while problem data (`durations`, `requests`,
  `capacities`) are `ℕ` because the data model declares them non-negative.
* C++ `double` values are modelled by the classification type `D`:
  `nan`, `inf` (+∞), `ninf` (−∞) or an exact rational `fin q`.  Rounding
  of finite values is idealised (exact rational arithmetic); the special
  values follow the IEEE-754 classification rules, which is what the
  claims about NaN / clamping / finiteness are about.
* Arrays are Lean lists; reads use `List.getD` and writes `List.set`.
  The three breadth-first traversals of the source terminate only
  because the precedence graph is a DAG, so they take an explicit fuel
  argument; `none` marks fuel exhaustion (a model artefact that the
  theorems either rule out or quantify over), `some none` marks the
  `return false` aborts of the source, `some (some _)` is a normal
  result.
* The inner advance-by-one loops are bounded by the horizon in the
  source itself; they get the exact fuel `horizon + 4`, which is proved
  sufficient below.
* The uninitialised buffers of the source (`double* ru = new
  double[njobs]`, the caller-provided `out` buffer) are model
  parameters: any initial contents is a legal execution of the C++.
* The random engine is modelled as a stream `rng : ℕ → ℚ` of draws of
  `uniform_real_distribution<double>(0, 1)` together with a cursor that
  is threaded through the computation.
-/

namespace RCPSPT

/-- IEEE-754 double, at classification precision: NaN, the two
infinities, or an exact (idealised, unrounded) finite rational. -/
inductive D where
  | nan : D
  | inf : D
  | ninf : D
  | fin : ℚ → D
deriving DecidableEq, Repr

namespace D

/-- `x != x`, i.e. the NaN test `std::isnan`. -/
def isNan : D → Bool
  | nan => true
  | _ => false

/-- The test `x < 0.0` on doubles (false for NaN). -/
def isNeg : D → Bool
  | nan => false
  | inf => false
  | ninf => true
  | fin q => decide (q < 0)

/-- Finiteness (neither NaN nor an infinity). -/
def isFin : D → Bool
  | fin _ => true
  | _ => false

/-- IEEE addition at classification precision. -/
def add : D → D → D
  | nan, _ => nan
  | _, nan => nan
  | inf, ninf => nan
  | ninf, inf => nan
  | inf, _ => inf
  | _, inf => inf
  | ninf, _ => ninf
  | _, ninf => ninf
  | fin a, fin b => fin (a + b)

/-- IEEE multiplication at classification precision (`0 * ±∞ = NaN`). -/
def mul : D → D → D
  | nan, _ => nan
  | _, nan => nan
  | inf, inf => inf
  | inf, ninf => ninf
  | ninf, inf => ninf
  | ninf, ninf => inf
  | inf, fin b => if 0 < b then inf else if b < 0 then ninf else nan
  | fin a, inf => if 0 < a then inf else if a < 0 then ninf else nan
  | ninf, fin b => if 0 < b then ninf else if b < 0 then inf else nan
  | fin a, ninf => if 0 < a then ninf else if a < 0 then inf else nan
  | fin a, fin b => fin (a * b)

/-- IEEE division at classification precision (`x/0 = ±∞` for `x ≠ 0`,
`0/0 = NaN`, `±∞/±∞ = NaN`; signed zeroes are identified with `+0`). -/
def div : D → D → D
  | nan, _ => nan
  | _, nan => nan
  | inf, inf => nan
  | inf, ninf => nan
  | ninf, inf => nan
  | ninf, ninf => nan
  | inf, fin b => if b < 0 then ninf else inf
  | ninf, fin b => if b < 0 then inf else ninf
  | fin _, inf => fin 0
  | fin _, ninf => fin 0
  | fin a, fin b =>
      if b = 0 then (if a = 0 then nan else if 0 < a then inf else ninf)
      else fin (a / b)

/-- The comparison `a >= b` on doubles (false whenever either is NaN). -/
def dge : D → D → Bool
  | nan, _ => false
  | _, nan => false
  | inf, _ => true
  | _, inf => false
  | _, ninf => true
  | ninf, _ => false
  | fin a, fin b => decide (b ≤ a)

/-- Conversion `(double) n` of a non-negative int (idealised: exact). -/
def ofNat (n : ℕ) : D := fin n

end D

/-- `OMEGA1 = 0.4` (idealised to the exact rational). -/
def omega1 : D := D.fin (2 / 5)

/-- `OMEGA2 = 0.6` (idealised to the exact rational). -/
def omega2 : D := D.fin (3 / 5)

/-- `NPASSES` from `Solver.cc`. -/
def NPASSES : ℕ := 1000

/-- `INT32_MAX / 2`, the initial `bestMakespan`. -/
def bestInit : ℤ := 1073741823

/-- Exactly `DBL_MAX / 2 = (2^53 - 1) * 2^970` as a numeral (kept as a
literal so that it evaluates); `-dmaxHalf` is the initial
`bestPriority` of the winner scan. -/
def dmaxHalf : ℚ := 89884656743115785407263711865852178399035283762922498299458738401578630390014269380294779316383439085770229476757191232117160663444732091384233773351768758493024955288275641038122745045194664472037934254227566971152291618451611474082904279666061674137398913102072361584369088590459649940625202013092062429184

/-- The immutable problem instance (`Problem.h`): jagged C arrays are
modelled as total functions / lists; only indices inside the declared
bounds are ever relevant. -/
structure Problem where
  njobs : ℕ
  horizon : ℕ
  nresources : ℕ
  durations : ℕ → ℕ
  nsuccessors : ℕ → ℕ
  successors : ℕ → ℕ → ℕ
  predecessors : ℕ → List ℕ
  requests : ℕ → ℕ → ℕ → ℕ
  capacities : ℕ → ℕ → ℕ

namespace Problem

/-- The successor adjacency list `successors[j][0..nsuccessors[j])`. -/
def succList (p : Problem) (j : ℕ) : List ℕ :=
  (List.range (p.nsuccessors j)).map (p.successors j)

end Problem

/-- The advance-until-feasible loop shared by the earliest-finish pass
(lines 66-82) and the tournament placement (lines 235-259): starting
from `finish`, as long as the feasibility check fails increment by one;
after each round return failure (`some none`) when `finish > horizon`.
`none` is fuel exhaustion. -/
def advLoop (check : ℤ → Bool) (horizon : ℕ) : ℕ → ℤ → Option (Option ℤ)
  | 0, _ => none
  | fuel + 1, finish =>
      if check finish then
        if (horizon : ℤ) < finish then some none else some (some finish)
      else
        if (horizon : ℤ) < finish + 1 then some none
        else advLoop check horizon fuel (finish + 1)

/-- The decrement-until-feasible loop of the latest-start pass
(lines 107-124): decrement the start while infeasible, abort (`some
none`) when it drops below `0`. -/
def decLoop (check : ℤ → Bool) : ℕ → ℤ → Option (Option ℤ)
  | 0, _ => none
  | fuel + 1, start =>
      if check start then
        if start < 0 then some none else some (some start)
      else
        if start - 1 < 0 then some none
        else decLoop check fuel (start - 1)

/-- Resource-feasibility test of the earliest-finish pass (lines 69-76):
`requests[job][k][t] ≤ capacities[k][ef - duration + t]` for all
resources `k` and local offsets `t`.  A negative array index (undefined
behaviour in C++, unreachable in well-formed runs) is clamped. -/
def efCheck (p : Problem) (job : ℕ) (f : ℤ) : Bool :=
  decide (∀ k < p.nresources, ∀ t < p.durations job,
    p.requests job k t ≤ p.capacities k (f - (p.durations job : ℤ) + t).toNat)

/-- Resource-feasibility test of the latest-start pass (lines 110-116):
`requests[job][k][t] ≤ capacities[k][ls + t]`. -/
def lsCheck (p : Problem) (job : ℕ) (s : ℤ) : Bool :=
  decide (∀ k < p.nresources, ∀ t < p.durations job,
    p.requests job k t ≤ p.capacities k (s + (t : ℤ)).toNat)

/-- `if (f > a[s]) a[s] = f`. -/
def bumpMax (a : List ℤ) (s : ℕ) (f : ℤ) : List ℤ :=
  if a.getD s 0 < f then a.set s f else a

/-- `if (f < a[s]) a[s] = f`. -/
def bumpMin (a : List ℤ) (s : ℕ) (f : ℤ) : List ℤ :=
  if f < a.getD s 0 then a.set s f else a

/-- Successor update of the earliest-finish pass (lines 85-90): for each
successor (in index order) take the maximum with
`ef[job] + durations[successor]` and push it on the queue. -/
def efFold (p : Problem) (v : ℤ) (l : List ℕ) (st : List ℤ × List ℕ) :
    List ℤ × List ℕ :=
  l.foldl (fun ac s => (bumpMax ac.1 s (v + (p.durations s : ℤ)), ac.2 ++ [s])) st

def efUpdate (p : Problem) (job : ℕ) (v : ℤ) (ef : List ℤ) (q : List ℕ) :
    List ℤ × List ℕ :=
  efFold p v (p.succList job) (ef, q)

/-- The earliest-feasible-finish BFS (lines 55-91).  `some none` is the
`return false` of line 80. -/
def efBfs (p : Problem) : ℕ → List ℕ → List ℤ → Option (Option (List ℤ))
  | 0, _, _ => none
  | _ + 1, [], ef => some (some ef)
  | fuel + 1, job :: rest, ef =>
      match advLoop (efCheck p job) p.horizon (p.horizon + 4) (ef.getD job 0) with
      | none => none
      | some none => some none
      | some (some v) =>
          let st := efUpdate p job v (ef.set job v) rest
          efBfs p fuel st.2 st.1

/-- Predecessor update of the latest-start pass (lines 127-131): for
each predecessor take the minimum with `ls[job] - durations[pred]` and
push it on the queue. -/
def lsFold (p : Problem) (v : ℤ) (l : List ℕ) (st : List ℤ × List ℕ) :
    List ℤ × List ℕ :=
  l.foldl (fun ac pr => (bumpMin ac.1 pr (v - (p.durations pr : ℤ)), ac.2 ++ [pr])) st

def lsUpdate (p : Problem) (job : ℕ) (v : ℤ) (ls : List ℤ) (q : List ℕ) :
    List ℤ × List ℕ :=
  lsFold p v (p.predecessors job) (ls, q)

/-- The latest-feasible-start BFS (lines 95-132). -/
def lsBfs (p : Problem) : ℕ → List ℕ → List ℤ → Option (Option (List ℤ))
  | 0, _, _ => none
  | _ + 1, [], ls => some (some ls)
  | fuel + 1, job :: rest, ls =>
      match decLoop (lsCheck p job) (p.horizon + 4) (ls.getD job 0) with
      | none => none
      | some none => some none
      | some (some v) =>
          let st := lsUpdate p job v (ls.set job v) rest
          lsBfs p fuel st.2 st.1

/-- Total demand of a job: `Σ_k Σ_{t<duration} requests[job][k][t]`
(lines 147-149). -/
def demandOf (p : Problem) (job : ℕ) : ℕ :=
  ∑ k ∈ Finset.range p.nresources, ∑ t ∈ Finset.range (p.durations job),
    p.requests job k t

/-- Availability window sum of a job:
`Σ_k Σ_{t = ef-duration}^{ls+duration-1} capacities[k][t]`
(lines 150-151); an empty or negative window sums to `0`. -/
def availOf (p : Problem) (job : ℕ) (ef ls : ℤ) : ℕ :=
  ∑ k ∈ Finset.range p.nresources,
    ∑ i ∈ Finset.range ((ls + (p.durations job : ℤ)) - (ef - (p.durations job : ℤ))).toNat,
      p.capacities k ((ef - (p.durations job : ℤ)) + (i : ℤ)).toNat

/-- One visit of the resource-utilisation pass (lines 146-159):
`ru[job] = ω₁ * ((nsuccessors/nresources) * (demand/availability))`,
then `ru[job] += ω₂ * ru[successor]` where `successor` ranges over the
*indices* `0 .. nsuccessors[job])` — the index/id conflation of the
source — and finally the NaN/negative clamp.  Reads of `ru` go through
the current array (so a self-read at index `job` sees the partial
accumulation, exactly as in C++). -/
def ruBase (p : Problem) (ef ls : List ℤ) (job : ℕ) : D :=
  omega1.mul (((D.ofNat (p.nsuccessors job)).div (D.ofNat p.nresources)).mul
    ((D.ofNat (demandOf p job)).div
      (D.ofNat (availOf p job (ef.getD job 0) (ls.getD job 0)))))

/-- The clamp of line 159: `if (std::isnan(ru[job]) || ru[job] < 0.0)
ru[job] = 0.0`. -/
def clampD (x : D) : D := if x.isNan || x.isNeg then D.fin 0 else x

/-- The accumulation loop of lines 157-158, reading `ru[successor]` for
`successor` an *index* below `nsuccessors[job]`. -/
def ruFold (job : ℕ) (l : List ℕ) (a : List D) : List D :=
  l.foldl (fun a i => a.set job ((a.getD job D.nan).add (omega2.mul (a.getD i D.nan)))) a

def ruVisit (p : Problem) (ef ls : List ℤ) (ru : List D) (job : ℕ) : List D :=
  let ru2 := ruFold job (List.range (p.nsuccessors job)) (ru.set job (ruBase p ef ls job))
  ru2.set job (clampD (ru2.getD job D.nan))

/-- The resource-utilisation BFS (lines 136-164); it has no abort. -/
def ruBfs (p : Problem) (ef ls : List ℤ) : ℕ → List ℕ → List D → Option (List D)
  | 0, _, _ => none
  | _ + 1, [], ru => some ru
  | fuel + 1, job :: rest, ru =>
      ruBfs p ef ls fuel (rest ++ p.predecessors job) (ruVisit p ef ls ru job)

/-- The CPRU priorities (lines 167-171):
`cpru[job] = (horizon - ls[job]) * ru[job]`. -/
def cpruArr (p : Problem) (ls : List ℤ) (ru : List D) : List D :=
  (List.range p.njobs).map
    (fun j => (D.fin ((p.horizon : ℤ) - ls.getD j 0 : ℤ)).mul (ru.getD j D.nan))

/-- The eligible activities of one scheduling step (lines 201-209):
unscheduled activities in `1 .. njobs)` whose predecessors are all
scheduled, in increasing index order. -/
def eligibleList (p : Problem) (sched : List ℤ) : List ℕ :=
  ((List.range p.njobs).drop 1).filter
    (fun j => sched.getD j 0 < 0 &&
      (p.predecessors j).all (fun q => 0 ≤ sched.getD q 0))

/-- Tournament size `Z = max((int)(0.5 * neligible), 2)` (line 210);
`0.5 * n` is exact in double and truncates to `n / 2`. -/
def tournSize (n : ℕ) : ℕ := max (n / 2) 2

/-- `(int)(r * neligible)` for one draw `r` (line 213); for `0 ≤ r`
truncation towards zero is the floor. -/
def choiceIdx (r : ℚ) (n : ℕ) : ℕ := (Int.floor (r * n)).toNat

/-- The sampled activities (lines 211-215): `Z` reads
`eligible[(int)(draw * neligible)]` with replacement, consuming draws
`rng c, rng (c+1), …`.  (With an empty eligible list the C++ reads a
stale buffer — undefined in the model, represented by default `0`;
this situation is proved unreachable for well-formed problems.) -/
def selectedList (rng : ℕ → ℚ) (c : ℕ) (elig : List ℕ) : List ℕ :=
  (List.range (tournSize elig.length)).map
    (fun i => elig.getD (choiceIdx (rng (c + i)) elig.length) 0)

/-- The winner scan (lines 217-226): fold over the sample keeping the
activity whose `cpru` is `>=` the best so far (so ties go to the later
occurrence); winner starts at `-1`, best at `-DBL_MAX/2`. -/
def scanWinner (cpru : List D) (sel : List ℕ) : ℤ × D :=
  sel.foldl
    (fun ac s => if (cpru.getD s D.nan).dge ac.2 then ((s : ℤ), cpru.getD s D.nan) else ac)
    (-1, D.fin (-dmaxHalf))

/-- Initial candidate finish of the placement (lines 229-233): start at
`-1` and take the maximum of `schedule[pred] + durations[winner]` over
the predecessors. -/
def initFinish (p : Problem) (sched : List ℤ) (w : ℕ) : ℤ :=
  (p.predecessors w).foldl
    (fun f q => max f (sched.getD q 0 + (p.durations w : ℤ))) (-1)

/-- Feasibility of a candidate finish against the remaining
availabilities (lines 238-245). -/
def availCheck (p : Problem) (avail : List (List ℤ)) (w : ℕ) (f : ℤ) : Bool :=
  decide (∀ k < p.nresources, ∀ t < p.durations w,
    (p.requests w k t : ℤ) ≤ (avail.getD k []).getD (f - (p.durations w : ℤ) + t).toNat 0)

/-- Inner loop of the commit: subtract `sub u` at cell `idx u` for
`u < m`. -/
def cellFold (idx : ℕ → ℕ) (sub : ℕ → ℤ) (m : ℕ) (row : List ℤ) : List ℤ :=
  (List.range m).foldl (fun row u => row.set (idx u) (row.getD (idx u) 0 - sub u)) row

/-- Outer loop of the commit: rewrite each row `k < K` by `f k`. -/
def rowFold (f : ℕ → List ℤ → List ℤ) (K : ℕ) (a : List (List ℤ)) : List (List ℤ) :=
  (List.range K).foldl (fun a k => a.set k (f k (a.getD k []))) a

/-- Commit of a placement (lines 263-266): subtract the requests of the
winner from the availabilities over its execution window,
`available[k][finish - duration + t] -= requests[winner][k][t]`. -/
def availCommit (p : Problem) (avail : List (List ℤ)) (w : ℕ) (f : ℤ) :
    List (List ℤ) :=
  rowFold
    (fun k row => cellFold (fun u => (f - (p.durations w : ℤ) + (u : ℤ)).toNat)
      (fun u => (p.requests w k u : ℤ)) (p.durations w) row)
    p.nresources avail

/-- One scheduling iteration of a tournament pass (lines 199-267):
eligible set, sample, winner, placement, commit.  State is
`(schedule, available, rng cursor)`; `none` is the abort of line 257
(the fuel-exhaustion branch of `advLoop` is proved unreachable). -/
def stepA (p : Problem) (cpru : List D) (rng : ℕ → ℚ)
    (st : List ℤ × List (List ℤ) × ℕ) : Option (List ℤ × List (List ℤ) × ℕ) :=
  let sched := st.1
  let avail := st.2.1
  let c := st.2.2
  let elig := eligibleList p sched
  let sel := selectedList rng c elig
  let w := (scanWinner cpru sel).1.toNat
  match advLoop (availCheck p avail w) p.horizon (p.horizon + 4) (initFinish p sched w) with
  | none => none
  | some none => none
  | some (some v) => some (sched.set w v, availCommit p avail w v, c + sel.length)

/-- `n` scheduling iterations in sequence. -/
def passSteps (p : Problem) (cpru : List D) (rng : ℕ → ℚ) :
    ℕ → List ℤ × List (List ℤ) × ℕ → Option (List ℤ × List (List ℤ) × ℕ)
  | 0, st => some st
  | n + 1, st =>
      match stepA p cpru rng st with
      | none => none
      | some st' => passSteps p cpru rng n st'

/-- Fresh availability grid of a pass (lines 191-193). -/
def availInit (p : Problem) : List (List ℤ) :=
  (List.range p.nresources).map
    (fun k => (List.range p.horizon).map (fun t => (p.capacities k t : ℤ)))

/-- Fresh schedule of a pass (lines 188-196): all `-1`, dummy source at
`0`. -/
def schedInit (p : Problem) : List ℤ :=
  (List.replicate p.njobs (-1 : ℤ)).set 0 0

/-- One full tournament pass starting at rng cursor `c`; returns the
complete schedule and the next cursor, or `none` for the abort. -/
def passRun (p : Problem) (cpru : List D) (rng : ℕ → ℚ) (c : ℕ) :
    Option (List ℤ × ℕ) :=
  match passSteps p cpru rng (p.njobs - 1) (schedInit p, availInit p, c) with
  | none => none
  | some st => some (st.1, st.2.2)

/-- Copy `schedule` into the caller's `out` buffer (line 271). -/
def copyOut (p : Problem) (sched out : List ℤ) : List ℤ :=
  (List.range p.njobs).foldl (fun o i => o.set i (sched.getD i 0)) out

/-- The pass loop (lines 187-273) plus the final return (line 284):
run `n` passes, keep the best-makespan schedule in `out`; a pass abort
returns `false` with the current `out` immediately; otherwise the
result is `bestMakespan ≤ horizon`. -/
def passesLoop (p : Problem) (cpru : List D) (rng : ℕ → ℚ) :
    ℕ → ℕ → ℤ → List ℤ → Bool × List ℤ
  | 0, _, best, out => (decide (best ≤ (p.horizon : ℤ)), out)
  | n + 1, c, best, out =>
      match passRun p cpru rng c with
      | none => (false, out)
      | some (sched, c') =>
          if sched.getD (p.njobs - 1) 0 < best
          then passesLoop p cpru rng n c' (sched.getD (p.njobs - 1) 0) (copyOut p sched out)
          else passesLoop p cpru rng n c' best out

/-- The whole of `PrSolver::solve` (lines 48-285).  `ru0` is the
uninitialised `ru` buffer, `out0` the caller's `out` buffer, `fuel`
bounds the three BFS traversals (`none` = fuel ran out, a model
artefact).  `some (b, out)` means the call returns `b` with the buffer
left as `out`. -/
def solveModel (p : Problem) (rng : ℕ → ℚ) (ru0 : List D) (out0 : List ℤ)
    (fuel : ℕ) : Option (Bool × List ℤ) :=
  match efBfs p fuel [0] (List.replicate p.njobs 0) with
  | none => none
  | some none => some (false, out0)
  | some (some ef) =>
      match lsBfs p fuel [p.njobs - 1] (List.replicate p.njobs (p.horizon : ℤ)) with
      | none => none
      | some none => some (false, out0)
      | some (some ls) =>
          match ruBfs p ef ls fuel [p.njobs - 1] ru0 with
          | none => none
          | some ru =>
              some (passesLoop p (cpruArr p ls ru) rng NPASSES 0 bestInit out0)

/-! ### Well-formed problems and reachability -/
/-- Reachability along the successor adjacency. -/
inductive ReachS (p : Problem) : ℕ → ℕ → Prop where
  | refl (j : ℕ) : ReachS p j j
  | step {i j k : ℕ} : j ∈ p.succList i → ReachS p j k → ReachS p i k

/-- Reachability along the predecessor adjacency. -/
inductive ReachP (p : Problem) : ℕ → ℕ → Prop where
  | refl (j : ℕ) : ReachP p j j
  | step {i j k : ℕ} : j ∈ p.predecessors i → ReachP p j k → ReachP p i k

/-- The data-model invariants of section 3 of the specification, for the
parts the proofs rely on: activity 0 is a zero-duration source without
predecessors that reaches every activity, activity `njobs - 1` is a
zero-duration sink that back-reaches every activity, predecessor
indices are in range, every non-source activity has a predecessor, and
the precedence graph is acyclic (witnessed by a topological height).
The bound on `horizon` reflects that it is an `int` strictly below the
initial `bestMakespan = INT32_MAX / 2`. -/
structure WellFormed (p : Problem) : Prop where
  njobs2 : 2 ≤ p.njobs
  hor1 : 1 ≤ p.horizon
  horBound : p.horizon < 1073741823
  srcDur : p.durations 0 = 0
  sinkDur : p.durations (p.njobs - 1) = 0
  srcNoPred : p.predecessors 0 = []
  predIdx : ∀ j < p.njobs, ∀ q ∈ p.predecessors j, q < p.njobs
  succIdx : ∀ j < p.njobs, ∀ s ∈ p.succList j, s < p.njobs
  predNe : ∀ j, 1 ≤ j → j < p.njobs → p.predecessors j ≠ []
  acyclic : ∃ ord : ℕ → ℕ, ∀ j < p.njobs, ∀ q ∈ p.predecessors j, ord q < ord j
  reachS : ∀ j < p.njobs, ReachS p 0 j
  reachP : ∀ j < p.njobs, ReachP p (p.njobs - 1) j

/-! ### Resource-utilisation pass lemmas -/
/-- What the clamp of line 159 guarantees: not NaN and not negative. -/
def clampOk (x : D) : Prop := x.isNan = false ∧ x.isNeg = false

/-! ### Winner scan lemmas -/
/-- The shape of a usable priority value: `+∞` or a non-negative finite
value.  (This is what the computed `cpru` values look like in a normal
run: the clamp makes `ru ≥ 0`, and `horizon - ls ≥ 0`.) -/
def okPri (x : D) : Prop := x = D.inf ∨ ∃ q : ℚ, x = D.fin q ∧ 0 ≤ q

/-! ### Schedule predicates (used by claims C1, C2) -/
/-- Total demand of the scheduled activities active at absolute time
`t`: `Σ requests[j][k][t - (sched[j] - durations[j])]` over the `j`
with `sched[j] - durations[j] ≤ t < sched[j]`. -/
def consumedSum (p : Problem) (sched : List ℤ) (k t : ℕ) : ℤ :=
  ∑ j ∈ Finset.range p.njobs,
    if sched.getD j 0 - (p.durations j : ℤ) ≤ (t : ℤ) ∧ (t : ℤ) < sched.getD j 0
    then (p.requests j k ((t : ℤ) - (sched.getD j 0 - (p.durations j : ℤ))).toNat : ℤ)
    else 0

/-- Precedence feasibility of a finish-time assignment:
`out[j] - durations[j] ≥ out[q]` for every predecessor `q` of `j`. -/
def precOK (p : Problem) (out : List ℤ) : Prop :=
  ∀ j < p.njobs, ∀ q ∈ p.predecessors j, out.getD q 0 ≤ out.getD j 0 - (p.durations j : ℤ)

/-- Resource feasibility of a finish-time assignment. -/
def resOK (p : Problem) (out : List ℤ) : Prop :=
  ∀ k < p.nresources, ∀ t < p.horizon, consumedSum p out k t ≤ (p.capacities k t : ℤ)

/-- Draws lie in `[0, 1)`: the model of
`uniform_real_distribution<double>(0, 1)`. -/
def rngOk (rng : ℕ → ℚ) : Prop := ∀ i, 0 ≤ rng i ∧ rng i < 1

/-- Usable priority values (no NaN, not below the scan's initial
`-DBL_MAX/2`): satisfied by the computed CPRU values of normal runs. -/
def cpruOk (p : Problem) (cpru : List D) : Prop :=
  ∀ j < p.njobs, okPri (cpru.getD j D.nan)

/-- The state invariant of the scheduling loop after `i` of the
`njobs - 1` iterations of a pass (counting the pre-scheduled source):
lengths, the dummy source at 0, the number of scheduled activities,
bounds on scheduled finish times, precedence feasibility of the partial
schedule, and the availability grid being exactly the capacities minus
the demand of the scheduled activities, still non-negative. -/
structure InvS (p : Problem) (i : ℕ) (sched : List ℤ) (avail : List (List ℤ)) : Prop where
  slen : sched.length = p.njobs
  src : sched.getD 0 0 = 0
  count : ((Finset.range p.njobs).filter (fun j => 0 ≤ sched.getD j 0)).card = i + 1
  bounds : ∀ j < p.njobs, sched.getD j 0 = -1 ∨
    ((p.durations j : ℤ) ≤ sched.getD j 0 ∧ sched.getD j 0 ≤ (p.horizon : ℤ))
  prec : ∀ j < p.njobs, 0 ≤ sched.getD j 0 → ∀ q ∈ p.predecessors j,
    0 ≤ sched.getD q 0 ∧ sched.getD q 0 ≤ sched.getD j 0 - (p.durations j : ℤ)
  alen : avail.length = p.nresources
  rlen : ∀ k < p.nresources, (avail.getD k []).length = p.horizon
  aeq : ∀ k < p.nresources, ∀ t < p.horizon,
    (avail.getD k []).getD t 0 = (p.capacities k t : ℤ) - consumedSum p sched k t
  ann : ∀ k < p.nresources, ∀ t < p.horizon, 0 ≤ (avail.getD k []).getD t 0

/-- A complete schedule: everything `goodOut` guarantees about the
`out` buffer of a `Found` result. -/
def goodOut (p : Problem) (out : List ℤ) : Prop :=
  precOK p out ∧ resOK p out ∧ out.getD 0 0 = 0 ∧
    ∀ j < p.njobs, 0 ≤ out.getD j 0 ∧ out.getD j 0 ≤ (p.horizon : ℤ)

/-! ### Pass-loop return-value analysis (claim C3) -/
/-- The next `n` passes starting at rng cursor `c` all complete
(no placement ran past the horizon). -/
def PassesComplete (p : Problem) (cpru : List D) (rng : ℕ → ℚ) : ℕ → ℕ → Prop
  | _, 0 => True
  | c, n + 1 =>
      match passRun p cpru rng c with
      | none => False
      | some (_, c') => PassesComplete p cpru rng c' n

/-- Among the next `n` passes starting at cursor `c`, some pass
completes with makespan `≤ horizon` (and all passes before it
complete). -/
def SomePassLe (p : Problem) (cpru : List D) (rng : ℕ → ℚ) : ℕ → ℕ → Prop
  | _, 0 => False
  | c, n + 1 =>
      match passRun p cpru rng c with
      | none => False
      | some (sched, c') =>
          sched.getD (p.njobs - 1) 0 ≤ (p.horizon : ℤ) ∨ SomePassLe p cpru rng c' n

/-- The spec-side recursive right-hand side of the utilisation formula
as the *claim* states it (claim C4):
`ω₁ · (nsuccessors/nresources) · (demand/availability) + ω₂ · Σ over
s ∈ successors(j) of ru[s]` — the sum runs over the successor *ids*,
unlike the source's index loop. -/
def ruSpecRhs (p : Problem) (ef ls : List ℤ) (ru : List D) (j : ℕ) : D :=
  (ruBase p ef ls j).add
    (omega2.mul ((p.succList j).foldl (fun acc s => acc.add (ru.getD s D.nan)) (D.fin 0)))

/-! ### Concrete instances for witnesses and counterexamples -/
/-- A minimal well-formed instance: two zero-duration activities, no
resources, horizon 1. -/
def W2 : Problem where
  njobs := 2
  horizon := 1
  nresources := 0
  durations := fun _ => 0
  nsuccessors := fun j => if j = 0 then 1 else 0
  successors := fun j _ => if j = 0 then 1 else 0
  predecessors := fun j => if j = 1 then [0] else []
  requests := fun _ _ _ => 0
  capacities := fun _ _ => 0

/-- The `ru` buffer contents used for the W2 runs. -/
def ru0W : List D := [D.fin 0, D.fin 0]

/-- The CPRU array of the W2 runs (with `ef = [0,0]`, `ls = [1,1]` and
`ru = [0,0]` as the preprocessing of W2 produces). -/
def cpruW : List D := cpruArr W2 [1, 1] [D.fin 0, D.fin 0]

/-- A constant rng stream drawing `0` forever. -/
def rng0 : ℕ → ℚ := fun _ => 0

/-- A three-activity chain `0 → 1 → 2` with one resource: activity 1
has duration 1 and requests 1 unit, capacity 1 everywhere, horizon 3. -/
def Q3 : Problem where
  njobs := 3
  horizon := 3
  nresources := 1
  durations := fun j => if j = 1 then 1 else 0
  nsuccessors := fun j => if j ≤ 1 then 1 else 0
  successors := fun j _ => j + 1
  predecessors := fun j => if j = 0 then [] else [j - 1]
  requests := fun j _ _ => if j = 1 then 1 else 0
  capacities := fun _ _ => 1

/-- A four-activity chain `0 → 1 → 2 → 3` with one resource: activities
1 and 2 have duration 1, activity 2 requests 1 unit, capacity 1
everywhere, horizon 5. -/
def Q4 : Problem where
  njobs := 4
  horizon := 5
  nresources := 1
  durations := fun j => if j = 1 || j = 2 then 1 else 0
  nsuccessors := fun j => if j ≤ 2 then 1 else 0
  successors := fun j _ => j + 1
  predecessors := fun j => if j = 0 then [] else [j - 1]
  requests := fun j _ _ => if j = 2 then 1 else 0
  capacities := fun _ _ => 1

/-- A diamond `0 → {1, 2} → 3` with one resource: activities 1 and 2
have duration 1; activity 1 requests 1 unit, activity 2 requests 2
units; the capacity is 2 in period 0 and 1 afterwards; horizon 2.
Activity 2 can only run in period 0; placing activity 1 first in
period 0 leaves room (capacity 2), placing it in period 1 blocks
activity 2. -/
def DI : Problem where
  njobs := 4
  horizon := 2
  nresources := 1
  durations := fun j => if j = 1 || j = 2 then 1 else 0
  nsuccessors := fun j => if j = 0 then 2 else if j = 3 then 0 else 1
  successors := fun j i => if j = 0 then (if i = 0 then 1 else 2) else 3
  predecessors := fun j => if j = 0 then [] else if j = 3 then [1, 2] else [0]
  requests := fun j _ _ => if j = 1 then 1 else if j = 2 then 2 else 0
  capacities := fun _ t => if t = 0 then 2 else 1

/-- The rng stream of the DI counterexample run: the first pass (two
draws) picks index 1 of the two-element eligible set (activity 2, the
high-priority one) and every later draw picks index 0. -/
def rngC3 : ℕ → ℚ := fun i => if i < 2 then 1/2 else 0

/-- A three-activity chain `0 → 1 → 2` in which activity 1 has
duration 5 but the horizon is only 3: the earliest-finish pass drives
`ef[1]` to 5 and aborts. -/
def P9 : Problem where
  njobs := 3
  horizon := 3
  nresources := 0
  durations := fun j => if j = 1 then 5 else 0
  nsuccessors := fun j => if j ≤ 1 then 1 else 0
  successors := fun j _ => j + 1
  predecessors := fun j => if j = 0 then [] else [j - 1]
  requests := fun _ _ _ => 0
  capacities := fun _ _ => 0

/-- A two-activity instance whose activity 1 has duration 5 and no
predecessors (used to evaluate the initial placement candidate of an
activity without predecessors). -/
def P7 : Problem where
  njobs := 2
  horizon := 9
  nresources := 0
  durations := fun j => if j = 1 then 5 else 0
  nsuccessors := fun _ => 0
  successors := fun _ _ => 0
  predecessors := fun _ => []
  requests := fun _ _ _ => 0
  capacities := fun _ _ => 0

/-! ### Generic list-buffer lemmas -/
theorem getD_set_self {α : Type} {l : List α} {i : ℕ} {v d : α} (h : i < l.length) :
    (l.set i v).getD i d = v := by
  simp [List.getD, List.getElem?_set_eq_of_lt, h]

theorem getD_set_ne {α : Type} {l : List α} {i j : ℕ} {v d : α} (h : i ≠ j) :
    (l.set i v).getD j d = l.getD j d := by
  simp [List.getD, List.getElem?_set_ne, h]

theorem getD_set_cases {α : Type} (l : List α) (i j : ℕ) (v d : α) :
    (l.set i v).getD j d = l.getD j d ∨ (i = j ∧ (l.set i v).getD j d = v) := by
  by_cases h : i = j
  · subst h
    by_cases hl : i < l.length
    · exact Or.inr ⟨rfl, getD_set_self hl⟩
    · left
      rw [List.set_eq_of_length_le (Nat.le_of_not_lt hl)]
  · exact Or.inl (getD_set_ne h)

/-! ### The advance / decrement loops -/
theorem advLoop_some {check : ℤ → Bool} {hz : ℕ} {fuel : ℕ} {s v : ℤ}
    (h : advLoop check hz fuel s = some (some v)) :
    s ≤ v ∧ check v = true ∧ v ≤ (hz : ℤ) ∧ ∀ f, s ≤ f → f < v → check f = false := by
  induction fuel generalizing s with
  | zero => simp [advLoop] at h
  | succ fuel ih =>
      rw [advLoop] at h
      by_cases hc : check s
      · simp only [hc, if_true] at h
        by_cases hhz : (hz : ℤ) < s
        · simp [hhz] at h
        · simp only [hhz, if_false] at h
          obtain rfl : s = v := by simpa using h
          exact ⟨le_refl _, hc, not_lt.mp hhz, fun f h1 h2 => absurd (lt_of_le_of_lt h1 h2) (lt_irrefl _)⟩
      · simp only [hc, if_false] at h
        by_cases hhz : (hz : ℤ) < s + 1
        · simp [hhz] at h
        · simp only [hhz, if_false] at h
          obtain ⟨h1, h2, h3, h4⟩ := ih h
          refine ⟨le_trans (by omega) h1, h2, h3, fun f hf1 hf2 => ?_⟩
          rcases eq_or_lt_of_le hf1 with rfl | hlt
          · simpa using hc
          · exact h4 f (by omega) hf2

theorem advLoop_abort {check : ℤ → Bool} {hz : ℕ} {fuel : ℕ} {s : ℤ}
    (h : advLoop check hz fuel s = some none) :
    ∃ f, s ≤ f ∧ (hz : ℤ) < f := by
  induction fuel generalizing s with
  | zero => simp [advLoop] at h
  | succ fuel ih =>
      rw [advLoop] at h
      by_cases hc : check s
      · simp only [hc, if_true] at h
        by_cases hhz : (hz : ℤ) < s
        · exact ⟨s, le_refl _, hhz⟩
        · simp [hhz] at h
      · simp only [hc, if_false] at h
        by_cases hhz : (hz : ℤ) < s + 1
        · exact ⟨s + 1, by omega, hhz⟩
        · simp only [hhz, if_false] at h
          obtain ⟨f, hf1, hf2⟩ := ih h
          exact ⟨f, by omega, hf2⟩

theorem advLoop_ne_none {check : ℤ → Bool} {hz : ℕ} {fuel : ℕ} {s : ℤ}
    (h : ((hz : ℤ) + 2 - s).toNat < fuel) :
    advLoop check hz fuel s ≠ none := by
  induction fuel generalizing s with
  | zero => omega
  | succ fuel ih =>
      rw [advLoop]
      by_cases hc : check s
      · simp only [hc, if_true]
        by_cases hhz : (hz : ℤ) < s <;> simp [hhz]
      · simp only [hc, if_false]
        by_cases hhz : (hz : ℤ) < s + 1
        · simp [hhz]
        · simp only [hhz, if_false]
          exact ih (by omega)

theorem decLoop_some {check : ℤ → Bool} {fuel : ℕ} {s v : ℤ}
    (h : decLoop check fuel s = some (some v)) :
    v ≤ s ∧ check v = true ∧ 0 ≤ v := by
  induction fuel generalizing s with
  | zero => simp [decLoop] at h
  | succ fuel ih =>
      rw [decLoop] at h
      by_cases hc : check s
      · simp only [hc, if_true] at h
        by_cases hneg : s < 0
        · simp [hneg] at h
        · simp only [hneg, if_false] at h
          obtain rfl : s = v := by simpa using h
          exact ⟨le_refl _, hc, not_lt.mp hneg⟩
      · simp only [hc, if_false] at h
        by_cases hneg : s - 1 < 0
        · simp [hneg] at h
        · simp only [hneg, if_false] at h
          obtain ⟨h1, h2, h3⟩ := ih h
          exact ⟨by omega, h2, h3⟩

theorem decLoop_ne_none {check : ℤ → Bool} {fuel : ℕ} {s : ℤ}
    (h : (s + 2).toNat < fuel) :
    decLoop check fuel s ≠ none := by
  induction fuel generalizing s with
  | zero => omega
  | succ fuel ih =>
      rw [decLoop]
      by_cases hc : check s
      · simp only [hc, if_true]
        by_cases hneg : s < 0 <;> simp [hneg]
      · simp only [hc, if_false]
        by_cases hneg : s - 1 < 0
        · simp [hneg]
        · simp only [hneg, if_false]
          exact ih (by omega)

/-! ### bumpMax / bumpMin lemmas -/
theorem bumpMax_length (a : List ℤ) (s : ℕ) (f : ℤ) :
    (bumpMax a s f).length = a.length := by
  unfold bumpMax; split <;> simp

theorem bumpMin_length (a : List ℤ) (s : ℕ) (f : ℤ) :
    (bumpMin a s f).length = a.length := by
  unfold bumpMin; split <;> simp

theorem bumpMax_mono (a : List ℤ) (s : ℕ) (f : ℤ) (j : ℕ) :
    a.getD j 0 ≤ (bumpMax a s f).getD j 0 := by
  unfold bumpMax
  split
  · rcases getD_set_cases a s j f 0 with h | ⟨he, h⟩
    · rw [h]
    · rw [h, ← he]; omega
  · exact le_refl _

theorem bumpMin_mono (a : List ℤ) (s : ℕ) (f : ℤ) (j : ℕ) :
    (bumpMin a s f).getD j 0 ≤ a.getD j 0 := by
  unfold bumpMin
  split
  · rcases getD_set_cases a s j f 0 with h | ⟨he, h⟩
    · rw [h]
    · rw [h, ← he]; omega
  · exact le_refl _

theorem bumpMax_self (a : List ℤ) (s : ℕ) (f : ℤ) (h : s < a.length) :
    f ≤ (bumpMax a s f).getD s 0 := by
  unfold bumpMax
  split
  · rw [getD_set_self h]
  · omega

theorem bumpMin_self (a : List ℤ) (s : ℕ) (f : ℤ) (h : s < a.length) :
    (bumpMin a s f).getD s 0 ≤ f := by
  unfold bumpMin
  split
  · rw [getD_set_self h]
  · omega

/-! ### Update-fold lemmas for the two preprocessing passes -/
theorem efFold_queue (p : Problem) (v : ℤ) (l : List ℕ) :
    ∀ st : List ℤ × List ℕ, (efFold p v l st).2 = st.2 ++ l := by
  induction l with
  | nil => intro st; simp [efFold]
  | cons s l ih =>
      intro st
      show (efFold p v l _).2 = _
      rw [ih]
      simp

theorem efFold_length (p : Problem) (v : ℤ) (l : List ℕ) :
    ∀ st : List ℤ × List ℕ, (efFold p v l st).1.length = st.1.length := by
  induction l with
  | nil => intro st; simp [efFold]
  | cons s l ih =>
      intro st
      show (efFold p v l _).1.length = _
      rw [ih]
      exact bumpMax_length _ _ _

theorem efFold_mono (p : Problem) (v : ℤ) (l : List ℕ) :
    ∀ (st : List ℤ × List ℕ) (j : ℕ), st.1.getD j 0 ≤ (efFold p v l st).1.getD j 0 := by
  induction l with
  | nil => intro st j; simp [efFold]
  | cons s l ih =>
      intro st j
      show _ ≤ (efFold p v l _).1.getD j 0
      exact le_trans (bumpMax_mono st.1 s _ j) (ih _ j)

theorem efFold_bound (p : Problem) (v : ℤ) (l : List ℕ) :
    ∀ (st : List ℤ × List ℕ), (∀ s ∈ l, s < st.1.length) →
      ∀ s ∈ l, v + (p.durations s : ℤ) ≤ (efFold p v l st).1.getD s 0 := by
  induction l with
  | nil => simp
  | cons i l ih =>
      intro st hlen s hs
      rcases List.mem_cons.mp hs with rfl | hs
      · show _ ≤ (efFold p v l _).1.getD s 0
        exact le_trans (bumpMax_self st.1 s _ (hlen s (List.mem_cons_self _ _)))
          (efFold_mono p v l _ s)
      · show _ ≤ (efFold p v l _).1.getD s 0
        refine ih _ (fun x hx => ?_) s hs
        rw [bumpMax_length]
        exact hlen x (List.mem_cons_of_mem _ hx)

theorem lsFold_queue (p : Problem) (v : ℤ) (l : List ℕ) :
    ∀ st : List ℤ × List ℕ, (lsFold p v l st).2 = st.2 ++ l := by
  induction l with
  | nil => intro st; simp [lsFold]
  | cons s l ih =>
      intro st
      show (lsFold p v l _).2 = _
      rw [ih]
      simp

theorem lsFold_length (p : Problem) (v : ℤ) (l : List ℕ) :
    ∀ st : List ℤ × List ℕ, (lsFold p v l st).1.length = st.1.length := by
  induction l with
  | nil => intro st; simp [lsFold]
  | cons s l ih =>
      intro st
      show (lsFold p v l _).1.length = _
      rw [ih]
      exact bumpMin_length _ _ _

theorem lsFold_mono (p : Problem) (v : ℤ) (l : List ℕ) :
    ∀ (st : List ℤ × List ℕ) (j : ℕ), (lsFold p v l st).1.getD j 0 ≤ st.1.getD j 0 := by
  induction l with
  | nil => intro st j; simp [lsFold]
  | cons s l ih =>
      intro st j
      show (lsFold p v l _).1.getD j 0 ≤ _
      exact le_trans (ih _ j) (bumpMin_mono st.1 s _ j)

theorem lsFold_bound (p : Problem) (v : ℤ) (l : List ℕ) :
    ∀ (st : List ℤ × List ℕ), (∀ s ∈ l, s < st.1.length) →
      ∀ s ∈ l, (lsFold p v l st).1.getD s 0 ≤ v - (p.durations s : ℤ) := by
  induction l with
  | nil => simp
  | cons i l ih =>
      intro st hlen s hs
      rcases List.mem_cons.mp hs with rfl | hs
      · show (lsFold p v l _).1.getD s 0 ≤ _
        exact le_trans (lsFold_mono p v l _ s)
          (bumpMin_self st.1 s _ (hlen s (List.mem_cons_self _ _)))
      · show (lsFold p v l _).1.getD s 0 ≤ _
        refine ih _ (fun x hx => ?_) s hs
        rw [bumpMin_length]
        exact hlen x (List.mem_cons_of_mem _ hx)

/-! ### Earliest-finish BFS lemmas -/
theorem efBfs_length {p : Problem} :
    ∀ {fuel : ℕ} {q : List ℕ} {ef ef' : List ℤ},
      efBfs p fuel q ef = some (some ef') → ef'.length = ef.length := by
  intro fuel
  induction fuel with
  | zero => intro q ef ef' h; simp [efBfs] at h
  | succ fuel ih =>
      intro q ef ef' h
      cases q with
      | nil =>
          rw [efBfs] at h
          obtain rfl : ef = ef' := by simpa using h
          rfl
      | cons job rest =>
          rw [efBfs] at h
          cases hm : advLoop (efCheck p job) p.horizon (p.horizon + 4) (ef.getD job 0) with
          | none => rw [hm] at h; simp at h
          | some o =>
              cases o with
              | none => rw [hm] at h; simp at h
              | some v =>
                  rw [hm] at h
                  simp only at h
                  rw [ih h, show efUpdate p job v (ef.set job v) rest =
                    efFold p v (p.succList job) (ef.set job v, rest) from rfl,
                    efFold_length]
                  simp

theorem efBfs_mono {p : Problem} :
    ∀ {fuel : ℕ} {q : List ℕ} {ef ef' : List ℤ},
      efBfs p fuel q ef = some (some ef') → ∀ j, ef.getD j 0 ≤ ef'.getD j 0 := by
  intro fuel
  induction fuel with
  | zero => intro q ef ef' h; simp [efBfs] at h
  | succ fuel ih =>
      intro q ef ef' h j
      cases q with
      | nil =>
          rw [efBfs] at h
          obtain rfl : ef = ef' := by simpa using h
          exact le_refl _
      | cons job rest =>
          rw [efBfs] at h
          cases hm : advLoop (efCheck p job) p.horizon (p.horizon + 4) (ef.getD job 0) with
          | none => rw [hm] at h; simp at h
          | some o =>
              cases o with
              | none => rw [hm] at h; simp at h
              | some v =>
                  rw [hm] at h
                  simp only at h
                  refine le_trans ?_ (le_trans (efFold_mono p v (p.succList job) (ef.set job v, rest) j) (ih h j))
                  obtain ⟨h1, -, -, -⟩ := advLoop_some hm
                  rcases getD_set_cases ef job j v 0 with he | ⟨rfl, he⟩
                  · rw [he]
                  · rw [he]; exact h1

theorem efBfs_reach {p : Problem}
    (hsucc : ∀ j < p.njobs, ∀ s ∈ p.succList j, s < p.njobs) :
    ∀ {fuel : ℕ} {q : List ℕ} {ef ef' : List ℤ},
      efBfs p fuel q ef = some (some ef') →
      ef.length = p.njobs →
      (∀ j ∈ q, j < p.njobs) →
      (∀ j ∈ q, (p.durations j : ℤ) ≤ ef.getD j 0) →
      ∀ j, (∃ x ∈ q, ReachS p x j) → (p.durations j : ℤ) ≤ ef'.getD j 0 := by
  intro fuel
  induction fuel with
  | zero => intro q ef ef' h; simp [efBfs] at h
  | succ fuel ih =>
      intro q ef ef' h hlen hqn hqb j hreach
      cases q with
      | nil => simp at hreach
      | cons job rest =>
          rw [efBfs] at h
          cases hm : advLoop (efCheck p job) p.horizon (p.horizon + 4) (ef.getD job 0) with
          | none => rw [hm] at h; simp at h
          | some o =>
              cases o with
              | none => rw [hm] at h; simp at h
              | some v =>
                  rw [hm] at h
                  simp only at h
                  obtain ⟨hv, -, -, -⟩ := advLoop_some hm
                  have hjob : job < p.njobs := hqn job (List.mem_cons_self _ _)
                  have hdjob : (p.durations job : ℤ) ≤ v :=
                    le_trans (hqb job (List.mem_cons_self _ _)) hv
                  have hlen1 : (ef.set job v).length = p.njobs := by simpa using hlen
                  -- the new queue
                  have hq2 : (efUpdate p job v (ef.set job v) rest).2 = rest ++ p.succList job := by
                    rw [show efUpdate p job v (ef.set job v) rest =
                      efFold p v (p.succList job) (ef.set job v, rest) from rfl, efFold_queue]
                  have hlen2 : (efUpdate p job v (ef.set job v) rest).1.length = p.njobs := by
                    rw [show efUpdate p job v (ef.set job v) rest =
                      efFold p v (p.succList job) (ef.set job v, rest) from rfl, efFold_length]
                    exact hlen1
                  have hqn2 : ∀ x ∈ (efUpdate p job v (ef.set job v) rest).2, x < p.njobs := by
                    rw [hq2]
                    intro x hx
                    rcases List.mem_append.mp hx with hx | hx
                    · exact hqn x (List.mem_cons_of_mem _ hx)
                    · exact hsucc job hjob x hx
                  have hqb2 : ∀ x ∈ (efUpdate p job v (ef.set job v) rest).2,
                      (p.durations x : ℤ) ≤ (efUpdate p job v (ef.set job v) rest).1.getD x 0 := by
                    rw [hq2]
                    intro x hx
                    rw [show efUpdate p job v (ef.set job v) rest =
                      efFold p v (p.succList job) (ef.set job v, rest) from rfl]
                    rcases List.mem_append.mp hx with hx | hx
                    · refine le_trans ?_ (efFold_mono p v (p.succList job) (ef.set job v, rest) x)
                      rcases getD_set_cases ef job x v 0 with he | ⟨rfl, he⟩
                      · rw [he]; exact hqb x (List.mem_cons_of_mem _ hx)
                      · rw [he]; exact hdjob
                    · have hb := efFold_bound p v (p.succList job) (ef.set job v, rest)
                        (fun s hs => by rw [hlen1]; exact hsucc job hjob s hs) x hx
                      have : (0 : ℤ) ≤ v := le_trans (by positivity) hdjob
                      omega
                  rcases hreach with ⟨x, hxq, hxr⟩
                  rcases List.mem_cons.mp hxq with heqx | hxrest
                  · -- reached from the popped job
                    rw [heqx] at hxr
                    cases hxr with
                    | refl =>
                        refine le_trans ?_ (efBfs_mono h j)
                        refine le_trans ?_ (efFold_mono p v (p.succList j) ((ef.set j v), rest) j)
                        rw [getD_set_self (by rw [hlen]; exact hjob)]
                        exact hdjob
                    | step hs hr =>
                        exact ih h hlen2 hqn2 hqb2 j ⟨_, by rw [hq2]; exact List.mem_append_right _ hs, hr⟩
                  · exact ih h hlen2 hqn2 hqb2 j ⟨x, by rw [hq2]; exact List.mem_append_left _ hxrest, hxr⟩

/-! ### Latest-start BFS lemmas -/
theorem lsBfs_length {p : Problem} :
    ∀ {fuel : ℕ} {q : List ℕ} {ls ls' : List ℤ},
      lsBfs p fuel q ls = some (some ls') → ls'.length = ls.length := by
  intro fuel
  induction fuel with
  | zero => intro q ls ls' h; simp [lsBfs] at h
  | succ fuel ih =>
      intro q ls ls' h
      cases q with
      | nil =>
          rw [lsBfs] at h
          obtain rfl : ls = ls' := by simpa using h
          rfl
      | cons job rest =>
          rw [lsBfs] at h
          cases hm : decLoop (lsCheck p job) (p.horizon + 4) (ls.getD job 0) with
          | none => rw [hm] at h; simp at h
          | some o =>
              cases o with
              | none => rw [hm] at h; simp at h
              | some v =>
                  rw [hm] at h
                  simp only at h
                  rw [ih h, show lsUpdate p job v (ls.set job v) rest =
                    lsFold p v (p.predecessors job) (ls.set job v, rest) from rfl,
                    lsFold_length]
                  simp

theorem lsBfs_mono {p : Problem} :
    ∀ {fuel : ℕ} {q : List ℕ} {ls ls' : List ℤ},
      lsBfs p fuel q ls = some (some ls') → ∀ j, ls'.getD j 0 ≤ ls.getD j 0 := by
  intro fuel
  induction fuel with
  | zero => intro q ls ls' h; simp [lsBfs] at h
  | succ fuel ih =>
      intro q ls ls' h j
      cases q with
      | nil =>
          rw [lsBfs] at h
          obtain rfl : ls = ls' := by simpa using h
          exact le_refl _
      | cons job rest =>
          rw [lsBfs] at h
          cases hm : decLoop (lsCheck p job) (p.horizon + 4) (ls.getD job 0) with
          | none => rw [hm] at h; simp at h
          | some o =>
              cases o with
              | none => rw [hm] at h; simp at h
              | some v =>
                  rw [hm] at h
                  simp only at h
                  refine le_trans (le_trans (ih h j) (lsFold_mono p v (p.predecessors job) (ls.set job v, rest) j)) ?_
                  obtain ⟨h1, -, -⟩ := decLoop_some hm
                  rcases getD_set_cases ls job j v 0 with he | ⟨rfl, he⟩
                  · rw [he]
                  · rw [he]; exact h1

theorem lsBfs_reach {p : Problem}
    (hpred : ∀ j < p.njobs, ∀ s ∈ p.predecessors j, s < p.njobs) :
    ∀ {fuel : ℕ} {q : List ℕ} {ls ls' : List ℤ},
      lsBfs p fuel q ls = some (some ls') →
      ls.length = p.njobs →
      (∀ j ∈ q, j < p.njobs) →
      (∀ j ∈ q, ls.getD j 0 + (p.durations j : ℤ) ≤ (p.horizon : ℤ)) →
      ∀ j, (∃ x ∈ q, ReachP p x j) → ls'.getD j 0 + (p.durations j : ℤ) ≤ (p.horizon : ℤ) := by
  intro fuel
  induction fuel with
  | zero => intro q ls ls' h; simp [lsBfs] at h
  | succ fuel ih =>
      intro q ls ls' h hlen hqn hqb j hreach
      cases q with
      | nil => simp at hreach
      | cons job rest =>
          rw [lsBfs] at h
          cases hm : decLoop (lsCheck p job) (p.horizon + 4) (ls.getD job 0) with
          | none => rw [hm] at h; simp at h
          | some o =>
              cases o with
              | none => rw [hm] at h; simp at h
              | some v =>
                  rw [hm] at h
                  simp only at h
                  obtain ⟨hv, -, hv0⟩ := decLoop_some hm
                  have hjob : job < p.njobs := hqn job (List.mem_cons_self _ _)
                  have hdjob : v + (p.durations job : ℤ) ≤ (p.horizon : ℤ) := by
                    have := hqb job (List.mem_cons_self _ _)
                    omega
                  have hvh : v ≤ (p.horizon : ℤ) := by
                    have : (0 : ℤ) ≤ (p.durations job : ℤ) := by positivity
                    omega
                  have hlen1 : (ls.set job v).length = p.njobs := by simpa using hlen
                  have hq2 : (lsUpdate p job v (ls.set job v) rest).2 = rest ++ p.predecessors job := by
                    rw [show lsUpdate p job v (ls.set job v) rest =
                      lsFold p v (p.predecessors job) (ls.set job v, rest) from rfl, lsFold_queue]
                  have hlen2 : (lsUpdate p job v (ls.set job v) rest).1.length = p.njobs := by
                    rw [show lsUpdate p job v (ls.set job v) rest =
                      lsFold p v (p.predecessors job) (ls.set job v, rest) from rfl, lsFold_length]
                    exact hlen1
                  have hqn2 : ∀ x ∈ (lsUpdate p job v (ls.set job v) rest).2, x < p.njobs := by
                    rw [hq2]
                    intro x hx
                    rcases List.mem_append.mp hx with hx | hx
                    · exact hqn x (List.mem_cons_of_mem _ hx)
                    · exact hpred job hjob x hx
                  have hqb2 : ∀ x ∈ (lsUpdate p job v (ls.set job v) rest).2,
                      (lsUpdate p job v (ls.set job v) rest).1.getD x 0 + (p.durations x : ℤ) ≤ (p.horizon : ℤ) := by
                    rw [hq2]
                    intro x hx
                    rw [show lsUpdate p job v (ls.set job v) rest =
                      lsFold p v (p.predecessors job) (ls.set job v, rest) from rfl]
                    rcases List.mem_append.mp hx with hx | hx
                    · refine le_trans (add_le_add_right
                        (lsFold_mono p v (p.predecessors job) (ls.set job v, rest) x) _) ?_
                      rcases getD_set_cases ls job x v 0 with he | ⟨rfl, he⟩
                      · rw [he]; exact hqb x (List.mem_cons_of_mem _ hx)
                      · rw [he]; exact hdjob
                    · have hb := lsFold_bound p v (p.predecessors job) (ls.set job v, rest)
                        (fun s hs => by rw [hlen1]; exact hpred job hjob s hs) x hx
                      omega
                  rcases hreach with ⟨x, hxq, hxr⟩
                  rcases List.mem_cons.mp hxq with heqx | hxrest
                  · rw [heqx] at hxr
                    cases hxr with
                    | refl =>
                        refine le_trans (add_le_add_right (le_trans (lsBfs_mono h j)
                          (lsFold_mono p v (p.predecessors j) ((ls.set j v), rest) j)) _) ?_
                        rw [getD_set_self (by rw [hlen]; exact hjob)]
                        exact hdjob
                    | step hs hr =>
                        exact ih h hlen2 hqn2 hqb2 j ⟨_, by rw [hq2]; exact List.mem_append_right _ hs, hr⟩
                  · exact ih h hlen2 hqn2 hqb2 j ⟨x, by rw [hq2]; exact List.mem_append_left _ hxrest, hxr⟩

theorem clampOk_clamp (x : D) : clampOk (clampD x) := by
  unfold clampD
  cases x with
  | nan => simp [D.isNan, D.isNeg, clampOk]
  | inf => simp [D.isNan, D.isNeg, clampOk]
  | ninf => simp [D.isNan, D.isNeg, clampOk]
  | fin q => by_cases h : q < 0 <;> simp [D.isNan, D.isNeg, clampOk, h]

theorem ruFold_length (job : ℕ) (l : List ℕ) :
    ∀ a : List D, (ruFold job l a).length = a.length := by
  induction l with
  | nil => intro a; rfl
  | cons i l ih =>
      intro a
      show (ruFold job l _).length = _
      rw [ih]
      simp

theorem ruFold_getD_ne (job : ℕ) (l : List ℕ) {j : ℕ} (hne : j ≠ job) :
    ∀ a : List D, (ruFold job l a).getD j D.nan = a.getD j D.nan := by
  induction l with
  | nil => intro a; rfl
  | cons i l ih =>
      intro a
      show (ruFold job l _).getD j D.nan = _
      rw [ih, getD_set_ne (Ne.symm hne)]

theorem ruFold_stable (job : ℕ) (l : List ℕ) :
    ∀ a : List D, a.length ≤ job → ruFold job l a = a := by
  induction l with
  | nil => intro a _; rfl
  | cons i l ih =>
      intro a ha
      show ruFold job l (a.set job ((a.getD job D.nan).add (omega2.mul (a.getD i D.nan)))) = a
      rw [List.set_eq_of_length_le ha]
      exact ih a ha

theorem ruVisit_length (p : Problem) (ef ls : List ℤ) (ru : List D) (job : ℕ) :
    (ruVisit p ef ls ru job).length = ru.length := by
  unfold ruVisit
  rw [List.length_set, ruFold_length, List.length_set]

theorem ruVisit_getD (p : Problem) (ef ls : List ℤ) (ru : List D) (job j : ℕ) :
    (ruVisit p ef ls ru job).getD j D.nan = ru.getD j D.nan ∨
      clampOk ((ruVisit p ef ls ru job).getD j D.nan) := by
  by_cases hj : j = job
  · subst hj
    by_cases hl : j < ru.length
    · right
      unfold ruVisit
      rw [getD_set_self (by rw [ruFold_length, List.length_set]; exact hl)]
      exact clampOk_clamp _
    · left
      unfold ruVisit
      have hle : ru.length ≤ j := Nat.le_of_not_lt hl
      rw [List.set_eq_of_length_le hle, ruFold_stable _ _ _ hle,
        List.set_eq_of_length_le hle]
  · left
    unfold ruVisit
    rw [getD_set_ne (Ne.symm hj), ruFold_getD_ne _ _ hj, getD_set_ne (Ne.symm hj)]

theorem ruBfs_length {p : Problem} {ef ls : List ℤ} :
    ∀ {fuel : ℕ} {q : List ℕ} {ru ru' : List D},
      ruBfs p ef ls fuel q ru = some ru' → ru'.length = ru.length := by
  intro fuel
  induction fuel with
  | zero => intro q ru ru' h; simp [ruBfs] at h
  | succ fuel ih =>
      intro q ru ru' h
      cases q with
      | nil =>
          rw [ruBfs] at h
          obtain rfl : ru = ru' := by simpa using h
          rfl
      | cons job rest =>
          rw [ruBfs] at h
          rw [ih h, ruVisit_length]

theorem ruBfs_getD {p : Problem} {ef ls : List ℤ} :
    ∀ {fuel : ℕ} {q : List ℕ} {ru ru' : List D},
      ruBfs p ef ls fuel q ru = some ru' →
      ∀ j, ru'.getD j D.nan = ru.getD j D.nan ∨ clampOk (ru'.getD j D.nan) := by
  intro fuel
  induction fuel with
  | zero => intro q ru ru' h; simp [ruBfs] at h
  | succ fuel ih =>
      intro q ru ru' h j
      cases q with
      | nil =>
          rw [ruBfs] at h
          obtain rfl : ru = ru' := by simpa using h
          exact Or.inl rfl
      | cons job rest =>
          rw [ruBfs] at h
          rcases ih h j with h1 | h1
          · rw [h1]
            exact ruVisit_getD p ef ls ru job j
          · exact Or.inr h1

theorem ruBfs_reach {p : Problem} {ef ls : List ℤ}
    (hpred : ∀ j < p.njobs, ∀ s ∈ p.predecessors j, s < p.njobs) :
    ∀ {fuel : ℕ} {q : List ℕ} {ru ru' : List D},
      ruBfs p ef ls fuel q ru = some ru' →
      ru.length = p.njobs →
      (∀ j ∈ q, j < p.njobs) →
      ∀ j, (∃ x ∈ q, ReachP p x j) → clampOk (ru'.getD j D.nan) := by
  intro fuel
  induction fuel with
  | zero => intro q ru ru' h; simp [ruBfs] at h
  | succ fuel ih =>
      intro q ru ru' h hlen hqn j hreach
      cases q with
      | nil => simp at hreach
      | cons job rest =>
          rw [ruBfs] at h
          have hjob : job < p.njobs := hqn job (List.mem_cons_self _ _)
          have hlen2 : (ruVisit p ef ls ru job).length = p.njobs := by
            rw [ruVisit_length]; exact hlen
          have hqn2 : ∀ x ∈ rest ++ p.predecessors job, x < p.njobs := by
            intro x hx
            rcases List.mem_append.mp hx with hx | hx
            · exact hqn x (List.mem_cons_of_mem _ hx)
            · exact hpred job hjob x hx
          rcases hreach with ⟨x, hxq, hxr⟩
          rcases List.mem_cons.mp hxq with heqx | hxrest
          · rw [heqx] at hxr
            cases hxr with
            | refl =>
                -- the popped job itself: its entry was clamped and later
                -- visits only rewrite clamped values
                rcases ruBfs_getD h j with h1 | h1
                · rw [h1]
                  unfold ruVisit
                  rw [getD_set_self (by
                    rw [ruFold_length, List.length_set, hlen]; exact hjob)]
                  exact clampOk_clamp _
                · exact h1
            | step hs hr =>
                exact ih h hlen2 hqn2 j ⟨_, List.mem_append_right _ hs, hr⟩
          · exact ih h hlen2 hqn2 j ⟨x, List.mem_append_left _ hxrest, hxr⟩

theorem dmaxHalf_nonneg : (0 : ℚ) ≤ dmaxHalf := by
  rw [dmaxHalf]
  positivity

theorem okPri_dge_init {x : D} (h : okPri x) : x.dge (D.fin (-dmaxHalf)) = true := by
  rcases h with rfl | ⟨q, rfl, hq⟩
  · rfl
  · simp only [D.dge, decide_eq_true_eq]
    have := dmaxHalf_nonneg
    linarith

theorem getD_mem {α : Type} {l : List α} {i : ℕ} (h : i < l.length) (d : α) :
    l.getD i d ∈ l := by
  rw [List.getD_eq_getElem l d h]
  exact List.getElem_mem _

theorem getD_append_lt {α : Type} (xs ys : List α) (i : ℕ) (d : α) (h : i < xs.length) :
    (xs ++ ys).getD i d = xs.getD i d := by
  rw [List.getD_eq_getElem?_getD, List.getElem?_append, List.getD_eq_getElem?_getD]
  simp [h]

theorem getD_append_last {α : Type} (xs : List α) (x : α) (d : α) :
    (xs ++ [x]).getD xs.length d = x := by
  rw [List.getD_eq_getElem?_getD, List.getElem?_append_right (le_refl _)]
  simp

theorem okPri_dge_refl {x : D} (h : okPri x) : x.dge x = true := by
  rcases h with rfl | ⟨q, rfl, hq⟩
  · rfl
  · simp [D.dge]

theorem okPri_dge_total {a b : D} (ha : okPri a) (hb : okPri b) :
    a.dge b = true ∨ b.dge a = true := by
  rcases ha with rfl | ⟨q, rfl, hq⟩ <;> rcases hb with rfl | ⟨r, rfl, hr⟩
  · left; rfl
  · left; rfl
  · right; rfl
  · simp only [D.dge, decide_eq_true_eq]
    rcases le_total r q with h | h
    · left; exact h
    · right; exact h

theorem okPri_dge_trans {a b c : D} (hab : a.dge b = true) (hbc : b.dge c = true) :
    a.dge c = true := by
  cases a <;> cases b <;> cases c <;>
    simp_all [D.dge, decide_eq_true_eq] <;> linarith

/-- The winner scan is the `≥`-argmax with ties to the later occurrence:
there is a position `i` in the sample holding the winner such that its
priority is `≥` every sampled priority, and no strictly later sample's
priority is `≥` it. -/
theorem scanWinner_spec (cpru : List D) (sel : List ℕ)
    (hne : sel ≠ [])
    (hok : ∀ s ∈ sel, okPri (cpru.getD s D.nan)) :
    ∃ i, i < sel.length ∧
      scanWinner cpru sel = (((sel.getD i 0 : ℕ) : ℤ), cpru.getD (sel.getD i 0) D.nan) ∧
      (∀ k < sel.length,
        (cpru.getD (sel.getD i 0) D.nan).dge (cpru.getD (sel.getD k 0) D.nan) = true) ∧
      (∀ k < sel.length, i < k →
        (cpru.getD (sel.getD k 0) D.nan).dge (cpru.getD (sel.getD i 0) D.nan) = false) := by
  induction sel using List.reverseRecOn with
  | nil => exact absurd rfl hne
  | append_singleton xs x ih =>
      rcases List.eq_nil_or_concat' xs with rfl | hxs
      · -- single element
        refine ⟨0, by simp, ?_, ?_, ?_⟩
        · have hx : okPri (cpru.getD x D.nan) := hok x (by simp)
          show scanWinner cpru [x] = _
          unfold scanWinner
          simp only [List.foldl_cons, List.foldl_nil, okPri_dge_init hx, if_true]
          simp
        · intro k hk
          simp only [List.length_append, List.length_nil, List.length_cons] at hk
          interval_cases k
          refine okPri_dge_refl ?_
          simpa using hok x (by simp)
        · intro k hk hik
          simp only [List.length_append, List.length_nil, List.length_cons] at hk
          omega
      · -- nonempty prefix
        have hxsne : xs ≠ [] := by rcases hxs with ⟨l, a, rfl⟩; simp
        have hokxs : ∀ s ∈ xs, okPri (cpru.getD s D.nan) :=
          fun s hs => hok s (List.mem_append_left _ hs)
        obtain ⟨i, hi, heq, hge, hlater⟩ := ih hxsne hokxs
        have hx : okPri (cpru.getD x D.nan) := hok x (by simp)
        have hfold : scanWinner cpru (xs ++ [x]) =
            (if (cpru.getD x D.nan).dge (scanWinner cpru xs).2
             then ((x : ℤ), cpru.getD x D.nan) else scanWinner cpru xs) := by
          unfold scanWinner
          rw [List.foldl_append]
          rfl
        have hgetDi : (xs ++ [x]).getD i 0 = xs.getD i 0 := getD_append_lt _ _ _ _ hi
        have hgetDx : (xs ++ [x]).getD xs.length 0 = x := getD_append_last _ _ _
        by_cases hbeat : (cpru.getD x D.nan).dge (scanWinner cpru xs).2 = true
        · -- the new last element wins
          refine ⟨xs.length, by simp, ?_, ?_, ?_⟩
          · rw [hfold, if_pos hbeat, hgetDx]
          · intro k hk
            simp only [List.length_append, List.length_cons, List.length_nil] at hk
            rw [hgetDx]
            rcases Nat.lt_or_ge k xs.length with hk' | hk'
            · rw [getD_append_lt _ _ _ _ hk']
              have h2 := hge k hk'
              have h1 : (cpru.getD x D.nan).dge (cpru.getD (xs.getD i 0) D.nan) = true := by
                rw [heq] at hbeat
                exact hbeat
              exact okPri_dge_trans h1 h2
            · have : k = xs.length := by omega
              subst this
              rw [hgetDx]
              exact okPri_dge_refl hx
          · intro k hk hik
            simp only [List.length_append, List.length_cons, List.length_nil] at hk
            omega
        · -- the old winner stays
          refine ⟨i, by simp only [List.length_append, List.length_cons, List.length_nil]; omega,
            ?_, ?_, ?_⟩
          · rw [hfold, if_neg (by simpa using hbeat), hgetDi, heq]
          · intro k hk
            simp only [List.length_append, List.length_cons, List.length_nil] at hk
            rw [hgetDi]
            rcases Nat.lt_or_ge k xs.length with hk' | hk'
            · rw [getD_append_lt _ _ _ _ hk']
              exact hge k hk'
            · have : k = xs.length := by omega
              subst this
              rw [hgetDx]
              rw [heq] at hbeat
              rcases okPri_dge_total hx (hokxs _ (getD_mem hi 0)) with h | h
              · exact absurd h (by simpa using hbeat)
              · exact h
          · intro k hk hik
            simp only [List.length_append, List.length_cons, List.length_nil] at hk
            rcases Nat.lt_or_ge k xs.length with hk' | hk'
            · rw [hgetDi, getD_append_lt _ _ _ _ hk']
              exact hlater k hk' hik
            · have : k = xs.length := by omega
              subst this
              rw [hgetDi, hgetDx]
              rw [heq] at hbeat
              simpa using hbeat

/-! ### Sampling lemmas -/
theorem choiceIdx_lt {r : ℚ} {n : ℕ} (h0 : 0 ≤ r) (h1 : r < 1) (hn : 1 ≤ n) :
    choiceIdx r n < n := by
  unfold choiceIdx
  have hn' : (0 : ℚ) < n := by exact_mod_cast hn
  have : r * n < n := by
    calc r * n < 1 * n := by exact mul_lt_mul_of_pos_right h1 hn'
    _ = n := one_mul _
  have hfl : Int.floor (r * n) < (n : ℤ) := by
    rw [Int.floor_lt]
    exact_mod_cast this
  have hfl0 : 0 ≤ Int.floor (r * n) := by
    apply Int.le_floor.mpr
    positivity
  omega

theorem choiceIdx_uniform {r : ℚ} {n k : ℕ} (h0 : 0 ≤ r) (hk : k < n) :
    choiceIdx r n = k ↔ ((k : ℚ) / n ≤ r ∧ r < (k + 1) / n) := by
  unfold choiceIdx
  have hn' : (0 : ℚ) < n := by
    have : 0 < n := Nat.lt_of_le_of_lt (Nat.zero_le _) hk
    exact_mod_cast this
  have hfl0 : 0 ≤ Int.floor (r * n) := by
    apply Int.le_floor.mpr
    positivity
  constructor
  · intro h
    have hkval : Int.floor (r * n) = (k : ℤ) := by omega
    have h1 : (k : ℚ) ≤ r * n := by
      have := Int.floor_le (r * n)
      rw [hkval] at this
      exact_mod_cast this
    have h2 : r * n < (k : ℚ) + 1 := by
      have := Int.lt_floor_add_one (r * n)
      rw [hkval] at this
      exact_mod_cast this
    constructor
    · rw [div_le_iff hn']
      linarith
    · rw [lt_div_iff hn']
      linarith
  · intro ⟨h1, h2⟩
    have h1' : (k : ℚ) ≤ r * n := by
      rw [div_le_iff hn'] at h1
      linarith
    have h2' : r * n < (k : ℚ) + 1 := by
      rw [lt_div_iff hn'] at h2
      push_cast at h2
      linarith
    have : Int.floor (r * n) = (k : ℤ) := by
      rw [Int.floor_eq_iff]
      constructor
      · exact_mod_cast h1'
      · exact_mod_cast h2'
    omega

/-! ### Initial-finish lemmas (claim C7) -/
theorem foldl_max_ge_init (g : ℕ → ℤ) (l : List ℕ) :
    ∀ init : ℤ, init ≤ l.foldl (fun f q => max f (g q)) init := by
  induction l with
  | nil => intro init; exact le_refl _
  | cons q l ih =>
      intro init
      exact le_trans (le_max_left _ _) (ih _)

theorem foldl_max_ge_mem (g : ℕ → ℤ) (l : List ℕ) :
    ∀ (init : ℤ) (q : ℕ), q ∈ l → g q ≤ l.foldl (fun f q => max f (g q)) init := by
  induction l with
  | nil => intro _ q hq; simp at hq
  | cons x l ih =>
      intro init q hq
      rcases List.mem_cons.mp hq with rfl | hq
      · exact le_trans (le_max_right _ _) (foldl_max_ge_init g l _)
      · exact ih _ q hq

theorem foldl_max_cases (g : ℕ → ℤ) (l : List ℕ) :
    ∀ init : ℤ, l.foldl (fun f q => max f (g q)) init = init ∨
      ∃ q ∈ l, l.foldl (fun f q => max f (g q)) init = g q := by
  induction l with
  | nil => intro init; exact Or.inl rfl
  | cons x l ih =>
      intro init
      rcases ih (max init (g x)) with h | ⟨q, hq, h⟩
      · rcases max_cases init (g x) with ⟨he, -⟩ | ⟨he, -⟩
        · left; rw [List.foldl_cons, h, he]
        · right
          exact ⟨x, List.mem_cons_self _ _, by rw [List.foldl_cons, h, he]⟩
      · right
        exact ⟨q, List.mem_cons_of_mem _ hq, by rw [List.foldl_cons, h]⟩

theorem initFinish_nil (p : Problem) (sched : List ℤ) (w : ℕ)
    (h : p.predecessors w = []) : initFinish p sched w = -1 := by
  unfold initFinish
  rw [h]
  rfl

theorem initFinish_ge (p : Problem) (sched : List ℤ) (w : ℕ) :
    ∀ q ∈ p.predecessors w, sched.getD q 0 + (p.durations w : ℤ) ≤ initFinish p sched w :=
  fun q hq => foldl_max_ge_mem _ _ _ q hq

theorem initFinish_max (p : Problem) (sched : List ℤ) (w : ℕ)
    (hne : p.predecessors w ≠ [])
    (hsched : ∀ q ∈ p.predecessors w, 0 ≤ sched.getD q 0) :
    ∃ q ∈ p.predecessors w, initFinish p sched w = sched.getD q 0 + (p.durations w : ℤ) ∧
      ∀ q' ∈ p.predecessors w,
        sched.getD q' 0 + (p.durations w : ℤ) ≤ initFinish p sched w := by
  rcases foldl_max_cases (fun q => sched.getD q 0 + (p.durations w : ℤ))
      (p.predecessors w) (-1) with h | ⟨q, hq, h⟩
  · exfalso
    rcases List.exists_mem_of_ne_nil _ hne with ⟨q, hq⟩
    have h1 := initFinish_ge p sched w q hq
    have h2 := hsched q hq
    unfold initFinish at h1
    rw [h] at h1
    have : (0 : ℤ) ≤ (p.durations w : ℤ) := by positivity
    omega
  · exact ⟨q, hq, h, fun q' hq' => initFinish_ge p sched w q' hq'⟩

theorem mem_drop_one_range {n j : ℕ} :
    j ∈ (List.range n).drop 1 ↔ 1 ≤ j ∧ j < n := by
  cases n with
  | zero => simp
  | succ m =>
      rw [List.range_succ_eq_map]
      simp only [List.drop_succ_cons, List.drop_zero, List.mem_map, List.mem_range]
      constructor
      · rintro ⟨k, hk, rfl⟩
        omega
      · rintro ⟨h1, h2⟩
        exact ⟨j - 1, by omega, by omega⟩

theorem eligibleList_mem (p : Problem) (sched : List ℤ) (j : ℕ) :
    j ∈ eligibleList p sched ↔
      1 ≤ j ∧ j < p.njobs ∧ sched.getD j 0 < 0 ∧
        ∀ q ∈ p.predecessors j, 0 ≤ sched.getD q 0 := by
  unfold eligibleList
  rw [List.mem_filter, mem_drop_one_range]
  simp only [Bool.and_eq_true, decide_eq_true_eq, List.all_eq_true]
  constructor
  · rintro ⟨⟨h1, h2⟩, h3, h4⟩
    exact ⟨h1, h2, h3, fun q hq => h4 q hq⟩
  · rintro ⟨h1, h2, h3, h4⟩
    exact ⟨⟨h1, h2⟩, h3, fun q hq => h4 q hq⟩

theorem consumedSum_set (p : Problem) (sched : List ℤ) (w : ℕ) (v : ℤ) (k t : ℕ)
    (hw : w < p.njobs) (hwlen : w < sched.length) (hold : sched.getD w 0 = -1) :
    consumedSum p (sched.set w v) k t = consumedSum p sched k t +
      (if v - (p.durations w : ℤ) ≤ (t : ℤ) ∧ (t : ℤ) < v
       then (p.requests w k ((t : ℤ) - (v - (p.durations w : ℤ))).toNat : ℤ)
       else 0) := by
  unfold consumedSum
  have hwmem : w ∈ Finset.range p.njobs := Finset.mem_range.mpr hw
  rw [← Finset.sum_erase_add _ _ hwmem, ← Finset.sum_erase_add _ _ hwmem]
  have hcongr : ∀ j ∈ (Finset.range p.njobs).erase w,
      (if (sched.set w v).getD j 0 - (p.durations j : ℤ) ≤ (t : ℤ) ∧ (t : ℤ) < (sched.set w v).getD j 0
       then (p.requests j k ((t : ℤ) - ((sched.set w v).getD j 0 - (p.durations j : ℤ))).toNat : ℤ)
       else 0) =
      (if sched.getD j 0 - (p.durations j : ℤ) ≤ (t : ℤ) ∧ (t : ℤ) < sched.getD j 0
       then (p.requests j k ((t : ℤ) - (sched.getD j 0 - (p.durations j : ℤ))).toNat : ℤ)
       else 0) := by
    intro j hj
    have hne : w ≠ j := fun he => (Finset.mem_erase.mp hj).1 (he.symm)
    rw [getD_set_ne hne]
  rw [Finset.sum_congr rfl hcongr]
  have hwold : (if sched.getD w 0 - (p.durations w : ℤ) ≤ (t : ℤ) ∧ (t : ℤ) < sched.getD w 0
      then (p.requests w k ((t : ℤ) - (sched.getD w 0 - (p.durations w : ℤ))).toNat : ℤ)
      else 0) = 0 := by
    rw [hold]
    have : ¬ ((-1 : ℤ) - (p.durations w : ℤ) ≤ (t : ℤ) ∧ (t : ℤ) < -1) := by
      rintro ⟨-, h2⟩
      have : (0 : ℤ) ≤ (t : ℤ) := by positivity
      omega
    rw [if_neg this]
  rw [hwold, getD_set_self hwlen]
  ring

/-! ### Commit-fold lemmas -/
theorem cellFold_zero (idx : ℕ → ℕ) (sub : ℕ → ℤ) (row : List ℤ) :
    cellFold idx sub 0 row = row := rfl

theorem cellFold_succ (idx : ℕ → ℕ) (sub : ℕ → ℤ) (m : ℕ) (row : List ℤ) :
    cellFold idx sub (m + 1) row =
      (cellFold idx sub m row).set (idx m)
        ((cellFold idx sub m row).getD (idx m) 0 - sub m) := by
  unfold cellFold
  rw [List.range_succ, List.foldl_append]
  rfl

theorem cellFold_length (idx : ℕ → ℕ) (sub : ℕ → ℤ) (m : ℕ) (row : List ℤ) :
    (cellFold idx sub m row).length = row.length := by
  induction m with
  | zero => rfl
  | succ m ih => rw [cellFold_succ, List.length_set, ih]

theorem cellFold_getD_notmem (idx : ℕ → ℕ) (sub : ℕ → ℤ) (m : ℕ) (row : List ℤ)
    (t : ℕ) (h : ∀ u < m, idx u ≠ t) :
    (cellFold idx sub m row).getD t 0 = row.getD t 0 := by
  induction m with
  | zero => rfl
  | succ m ih =>
      rw [cellFold_succ, getD_set_ne (h m (Nat.lt_succ_self m)),
        ih (fun u hu => h u (Nat.lt_succ_of_lt hu))]

theorem cellFold_getD_mem (idx : ℕ → ℕ) (sub : ℕ → ℤ) (m : ℕ) (row : List ℤ)
    (hinj : ∀ u1 < m, ∀ u2 < m, idx u1 = idx u2 → u1 = u2)
    (u0 : ℕ) (hu0 : u0 < m) (hlen : idx u0 < row.length) :
    (cellFold idx sub m row).getD (idx u0) 0 = row.getD (idx u0) 0 - sub u0 := by
  induction m with
  | zero => omega
  | succ m ih =>
      rw [cellFold_succ]
      rcases Nat.lt_or_ge u0 m with hu | hu
      · rw [getD_set_ne (fun he =>
          absurd (hinj m (Nat.lt_succ_self m) u0 (Nat.lt_succ_of_lt hu) he) (by omega))]
        exact ih (fun u1 h1 u2 h2 he =>
          hinj u1 (Nat.lt_succ_of_lt h1) u2 (Nat.lt_succ_of_lt h2) he) hu
      · have : u0 = m := by omega
        subst this
        rw [getD_set_self (by rw [cellFold_length]; exact hlen),
          cellFold_getD_notmem]
        intro u hu he
        exact absurd (hinj u (Nat.lt_succ_of_lt hu) u0 (Nat.lt_succ_self _) he) (by omega)

theorem rowFold_zero (f : ℕ → List ℤ → List ℤ) (a : List (List ℤ)) :
    rowFold f 0 a = a := rfl

theorem rowFold_succ (f : ℕ → List ℤ → List ℤ) (K : ℕ) (a : List (List ℤ)) :
    rowFold f (K + 1) a =
      (rowFold f K a).set K (f K ((rowFold f K a).getD K [])) := by
  unfold rowFold
  rw [List.range_succ, List.foldl_append]
  rfl

theorem rowFold_length (f : ℕ → List ℤ → List ℤ) (K : ℕ) (a : List (List ℤ)) :
    (rowFold f K a).length = a.length := by
  induction K with
  | zero => rfl
  | succ K ih => rw [rowFold_succ, List.length_set, ih]

theorem rowFold_getD (f : ℕ → List ℤ → List ℤ) (K : ℕ) (a : List (List ℤ))
    (k : ℕ) (hk : k < a.length) :
    (rowFold f K a).getD k [] = if k < K then f k (a.getD k []) else a.getD k [] := by
  induction K with
  | zero => simp [rowFold_zero]
  | succ K ih =>
      rw [rowFold_succ]
      rcases Nat.lt_trichotomy k K with h | rfl | h
      · rw [getD_set_ne (by omega), ih, if_pos h, if_pos (by omega)]
      · rw [getD_set_self (by rw [rowFold_length]; exact hk),
          ih, if_neg (lt_irrefl _), if_pos (Nat.lt_succ_self _)]
      · rw [getD_set_ne (by omega), ih, if_neg (by omega), if_neg (by omega)]

/-! ### The tournament-pass invariant -/
theorem getD_map_range_lt {α : Type} (K k : ℕ) (g : ℕ → α) (d : α) (h : k < K) :
    ((List.range K).map g).getD k d = g k := by
  rw [List.getD_eq_getElem?_getD]
  simp [List.getElem?_map, List.getElem?_range h]

theorem schedInit_getD (p : Problem) (hn : 1 ≤ p.njobs) (j : ℕ) :
    (schedInit p).getD j 0 = if j = 0 then 0 else if j < p.njobs then -1 else 0 := by
  unfold schedInit
  by_cases h0 : j = 0
  · subst h0
    rw [getD_set_self (by simpa using hn)]
    rfl
  · rw [getD_set_ne (fun he => h0 he.symm), if_neg h0]
    by_cases hj : j < p.njobs
    · rw [if_pos hj]
      simp [List.getD, List.getElem?_replicate, hj]
    · rw [if_neg hj]
      rw [List.getD_eq_getElem?_getD, List.getElem?_eq_none (by simpa using hj)]
      rfl

theorem invS_init (p : Problem) (hwf : WellFormed p) (c : ℕ) :
    InvS p 0 (schedInit p) (availInit p) := by
  have hn : 1 ≤ p.njobs := le_trans (by norm_num) hwf.njobs2
  have hsched := schedInit_getD p hn
  have hconsumed : ∀ k t : ℕ, consumedSum p (schedInit p) k t = 0 := by
    intro k t
    unfold consumedSum
    apply Finset.sum_eq_zero
    intro j hj
    rw [hsched j]
    by_cases h0 : j = 0
    · subst h0
      rw [if_pos rfl, if_neg]
      rintro ⟨-, h2⟩
      have : (0:ℤ) ≤ (t:ℤ) := by positivity
      omega
    · rw [if_neg h0, if_pos (Finset.mem_range.mp hj), if_neg]
      rintro ⟨-, h2⟩
      have : (0:ℤ) ≤ (t:ℤ) := by positivity
      omega
  refine ⟨by simp [schedInit], by rw [hsched 0]; rfl, ?_, ?_, ?_, by simp [availInit], ?_, ?_, ?_⟩
  · have : (Finset.range p.njobs).filter (fun j => 0 ≤ (schedInit p).getD j 0) = {0} := by
      apply Finset.ext
      intro j
      simp only [Finset.mem_filter, Finset.mem_range, Finset.mem_singleton]
      constructor
      · rintro ⟨hj, hge⟩
        by_contra h0
        rw [hsched j, if_neg h0, if_pos hj] at hge
        omega
      · rintro rfl
        exact ⟨by omega, by rw [hsched 0]; norm_num⟩
    rw [this]
    rfl
  · intro j hj
    rw [hsched j]
    by_cases h0 : j = 0
    · subst h0
      right
      rw [if_pos rfl, hwf.srcDur]
      constructor
      · norm_num
      · positivity
    · left
      rw [if_neg h0, if_pos hj]
  · intro j hj hge q hq
    by_cases h0 : j = 0
    · subst h0
      rw [hwf.srcNoPred] at hq
      simp at hq
    · rw [hsched j, if_neg h0, if_pos hj] at hge
      omega
  · intro k hk
    unfold availInit
    rw [getD_map_range_lt _ _ _ _ hk]
    simp
  · intro k hk t ht
    unfold availInit
    rw [getD_map_range_lt _ _ _ _ hk, getD_map_range_lt _ _ _ _ ht, hconsumed]
    ring
  · intro k hk t ht
    unfold availInit
    rw [getD_map_range_lt _ _ _ _ hk, getD_map_range_lt _ _ _ _ ht]
    positivity

/-- With an acyclic precedence graph, whenever an unscheduled activity
remains there is an eligible one (claim C10's core argument): take an
unscheduled activity of minimal topological height. -/
theorem eligible_ne (p : Problem) (hwf : WellFormed p)
    {i : ℕ} {sched : List ℤ} {avail : List (List ℤ)}
    (hInv : InvS p i sched avail) (hi : i + 1 < p.njobs) :
    eligibleList p sched ≠ [] := by
  obtain ⟨ord, hord⟩ := hwf.acyclic
  have hcompl : ((Finset.range p.njobs).filter (fun j => ¬ 0 ≤ sched.getD j 0)).card =
      p.njobs - (i + 1) := by
    have := Finset.filter_card_add_filter_neg_card_eq_card
      (s := Finset.range p.njobs) (p := fun j => 0 ≤ sched.getD j 0)
    rw [hInv.count] at this
    simp only [Finset.card_range] at this
    omega
  have hne : ((Finset.range p.njobs).filter (fun j => ¬ 0 ≤ sched.getD j 0)).Nonempty := by
    rw [← Finset.card_pos, hcompl]
    omega
  obtain ⟨j, hjmem, hjmin⟩ := Finset.exists_min_image _ ord hne
  obtain ⟨hjn, hjneg⟩ := Finset.mem_filter.mp hjmem
  have hjn' : j < p.njobs := Finset.mem_range.mp hjn
  have hj0 : j ≠ 0 := by
    intro h0
    subst h0
    rw [hInv.src] at hjneg
    exact hjneg (le_refl 0)
  refine List.ne_nil_of_mem ((eligibleList_mem p sched j).mpr ⟨by omega, hjn', by omega, ?_⟩)
  intro q hq
  by_contra hqneg
  have hqn : q < p.njobs := hwf.predIdx j hjn' q hq
  have hqmem : q ∈ (Finset.range p.njobs).filter (fun j => ¬ 0 ≤ sched.getD j 0) :=
    Finset.mem_filter.mpr ⟨Finset.mem_range.mpr hqn, hqneg⟩
  have := hjmin q hqmem
  have := hord j hjn' q hq
  omega

theorem selectedList_length (rng : ℕ → ℚ) (c : ℕ) (elig : List ℕ) :
    (selectedList rng c elig).length = tournSize elig.length := by
  simp [selectedList]

theorem selectedList_subset (rng : ℕ → ℚ) (c : ℕ) (elig : List ℕ)
    (hrng : rngOk rng) (hne : elig ≠ []) :
    ∀ s ∈ selectedList rng c elig, s ∈ elig := by
  intro s hs
  unfold selectedList at hs
  rcases List.mem_map.mp hs with ⟨i, -, rfl⟩
  have hlen : 1 ≤ elig.length := by
    have := List.length_pos.mpr hne
    omega
  exact getD_mem (choiceIdx_lt (hrng (c + i)).1 (hrng (c + i)).2 hlen) 0

theorem selectedList_ne (rng : ℕ → ℚ) (c : ℕ) (elig : List ℕ) :
    selectedList rng c elig ≠ [] := by
  have h : (selectedList rng c elig).length = tournSize elig.length :=
    selectedList_length rng c elig
  have h2 : 2 ≤ tournSize elig.length := le_max_right _ _
  intro hnil
  rw [hnil] at h
  simp at h
  omega

/-- One scheduling iteration preserves the invariant. -/
theorem stepA_inv (p : Problem) (hwf : WellFormed p) (cpru : List D) (rng : ℕ → ℚ)
    (hrng : rngOk rng) (hcpru : cpruOk p cpru)
    {i : ℕ} {sched : List ℤ} {avail : List (List ℤ)} {c : ℕ}
    (hInv : InvS p i sched avail) (hi : i + 1 < p.njobs)
    {st' : List ℤ × List (List ℤ) × ℕ}
    (hstep : stepA p cpru rng (sched, avail, c) = some st') :
    InvS p (i + 1) st'.1 st'.2.1 := by
  have helig := eligible_ne p hwf hInv hi
  have hselne := selectedList_ne rng c (eligibleList p sched)
  have hsub := selectedList_subset rng c (eligibleList p sched) hrng helig
  have hok : ∀ s ∈ selectedList rng c (eligibleList p sched), okPri (cpru.getD s D.nan) := by
    intro s hs
    exact hcpru s ((eligibleList_mem p sched s).mp (hsub s hs)).2.1
  obtain ⟨i0, hi0, heq, -, -⟩ :=
    scanWinner_spec cpru (selectedList rng c (eligibleList p sched)) hselne hok
  set w := (selectedList rng c (eligibleList p sched)).getD i0 0 with hw_def
  have hwmem : w ∈ eligibleList p sched := hsub _ (getD_mem hi0 0)
  obtain ⟨hw1, hwn, hwneg, hwpred⟩ := (eligibleList_mem p sched _).mp hwmem
  simp only [stepA, heq, Int.toNat_natCast] at hstep
  cases hm : advLoop (availCheck p avail w) p.horizon (p.horizon + 4)
      (initFinish p sched w) with
  | none => rw [hm] at hstep; simp at hstep
  | some o =>
      cases o with
      | none => rw [hm] at hstep; simp at hstep
      | some v =>
          rw [hm] at hstep
          simp only [Option.some.injEq] at hstep
          obtain rfl := hstep.symm
          obtain ⟨hfv, hcheck, hvh, -⟩ := advLoop_some hm
          obtain ⟨q0, hq0, hf0eq, hfall⟩ :=
            initFinish_max p sched w (hwf.predNe w hw1 hwn) hwpred
          have hd0 : (p.durations w : ℤ) ≤ initFinish p sched w := by
            have := hwpred q0 hq0
            omega
          have hdv : (p.durations w : ℤ) ≤ v := le_trans hd0 hfv
          have hv0 : (0:ℤ) ≤ v := le_trans (by positivity) hdv
          have hschedw : sched.getD w 0 = -1 := by
            rcases hInv.bounds w hwn with h | ⟨h1, h2⟩
            · exact h
            · exfalso
              have : (0:ℤ) ≤ (p.durations w : ℤ) := by positivity
              omega
          have hwlen : w < sched.length := by rw [hInv.slen]; exact hwn
          simp only [availCheck, decide_eq_true_eq] at hcheck
          have hinj : ∀ u1 < p.durations w, ∀ u2 < p.durations w,
              (v - (p.durations w : ℤ) + u1).toNat = (v - (p.durations w : ℤ) + u2).toNat →
              u1 = u2 := by
            intro u1 h1 u2 h2 he
            omega
          refine ⟨by simpa using hInv.slen, ?_, ?_, ?_, ?_, ?_, ?_, ?_, ?_⟩
          · rw [getD_set_ne (by omega : w ≠ 0)]
            exact hInv.src
          · have hins : (Finset.range p.njobs).filter (fun j => 0 ≤ (sched.set w v).getD j 0) =
                insert w ((Finset.range p.njobs).filter (fun j => 0 ≤ sched.getD j 0)) := by
              apply Finset.ext
              intro j
              simp only [Finset.mem_filter, Finset.mem_range, Finset.mem_insert]
              by_cases hjw : j = w
              · subst hjw
                rw [getD_set_self hwlen]
                constructor
                · rintro ⟨-, -⟩; exact Or.inl rfl
                · rintro -; exact ⟨hwn, hv0⟩
              · rw [getD_set_ne (fun he => hjw he.symm)]
                constructor
                · rintro ⟨h1, h2⟩; exact Or.inr ⟨h1, h2⟩
                · rintro (rfl | ⟨h1, h2⟩)
                  · exact absurd rfl hjw
                  · exact ⟨h1, h2⟩
            rw [hins, Finset.card_insert_of_not_mem, hInv.count]
            intro hmem
            have := (Finset.mem_filter.mp hmem).2
            omega
          · intro j hj
            by_cases hjw : j = w
            · subst hjw
              rw [getD_set_self hwlen]
              exact Or.inr ⟨hdv, hvh⟩
            · rw [getD_set_ne (fun he => hjw he.symm)]
              exact hInv.bounds j hj
          · intro j hj hge q hq
            by_cases hjw : j = w
            · subst hjw
              have hq0le := hwpred q hq
              have hqw : q ≠ w := by
                intro he
                rw [he, hschedw] at hq0le
                omega
              rw [getD_set_ne (fun he => hqw he.symm), getD_set_self hwlen]
              refine ⟨hq0le, ?_⟩
              have := hfall q hq
              omega
            · rw [getD_set_ne (fun he => hjw he.symm)] at hge ⊢
              obtain ⟨hq1, hq2⟩ := hInv.prec j hj hge q hq
              have hqw : q ≠ w := by
                intro he
                rw [he, hschedw] at hq1
                omega
              rw [getD_set_ne (fun he => hqw he.symm)]
              exact ⟨hq1, hq2⟩
          · show (availCommit p avail w v).length = p.nresources
            unfold availCommit
            rw [rowFold_length]
            exact hInv.alen
          · intro k hk
            show ((availCommit p avail w v).getD k []).length = p.horizon
            unfold availCommit
            rw [rowFold_getD _ _ _ k (by rw [hInv.alen]; exact hk), if_pos hk, cellFold_length]
            exact hInv.rlen k hk
          · intro k hk t ht
            show ((availCommit p avail w v).getD k []).getD t 0 = _
            unfold availCommit
            rw [rowFold_getD _ _ _ k (by rw [hInv.alen]; exact hk), if_pos hk,
              consumedSum_set p sched w v k t hwn hwlen hschedw]
            by_cases hact : v - (p.durations w : ℤ) ≤ (t:ℤ) ∧ (t:ℤ) < v
            · have hu0d : ((t:ℤ) - (v - (p.durations w : ℤ))).toNat < p.durations w := by omega
              have hidx : (v - (p.durations w : ℤ) +
                  ((((t:ℤ) - (v - (p.durations w : ℤ))).toNat : ℕ) : ℤ)).toNat = t := by omega
              rw [show t = (v - (p.durations w : ℤ) +
                  ((((t:ℤ) - (v - (p.durations w : ℤ))).toNat : ℕ) : ℤ)).toNat from hidx.symm]
              rw [cellFold_getD_mem _ _ _ _ hinj _ hu0d
                (by rw [hInv.rlen k hk]; omega)]
              rw [hidx, hInv.aeq k hk t ht, if_pos hact]
              ring
            · rw [cellFold_getD_notmem _ _ _ _ t (fun u hu he => by omega),
                if_neg hact, add_zero]
              exact hInv.aeq k hk t ht
          · intro k hk t ht
            show (0:ℤ) ≤ ((availCommit p avail w v).getD k []).getD t 0
            unfold availCommit
            rw [rowFold_getD _ _ _ k (by rw [hInv.alen]; exact hk), if_pos hk]
            by_cases hact : v - (p.durations w : ℤ) ≤ (t:ℤ) ∧ (t:ℤ) < v
            · have hu0d : ((t:ℤ) - (v - (p.durations w : ℤ))).toNat < p.durations w := by omega
              have hidx : (v - (p.durations w : ℤ) +
                  ((((t:ℤ) - (v - (p.durations w : ℤ))).toNat : ℕ) : ℤ)).toNat = t := by omega
              rw [show t = (v - (p.durations w : ℤ) +
                  ((((t:ℤ) - (v - (p.durations w : ℤ))).toNat : ℕ) : ℤ)).toNat from hidx.symm]
              rw [cellFold_getD_mem _ _ _ _ hinj _ hu0d
                (by rw [hInv.rlen k hk]; omega)]
              have hreq := hcheck k hk _ hu0d
              omega
            · rw [cellFold_getD_notmem _ _ _ _ t (fun u hu he => by omega)]
              exact hInv.ann k hk t ht

/-! ### Whole-pass and pass-loop lemmas -/
theorem passSteps_inv (p : Problem) (hwf : WellFormed p) (cpru : List D) (rng : ℕ → ℚ)
    (hrng : rngOk rng) (hcpru : cpruOk p cpru) :
    ∀ (n : ℕ) {i : ℕ} {sched : List ℤ} {avail : List (List ℤ)} {c : ℕ}
      {st' : List ℤ × List (List ℤ) × ℕ},
      passSteps p cpru rng n (sched, avail, c) = some st' →
      InvS p i sched avail → i + n ≤ p.njobs - 1 →
      InvS p (i + n) st'.1 st'.2.1 := by
  intro n
  induction n with
  | zero =>
      intro i sched avail c st' h hInv _
      rw [passSteps] at h
      obtain rfl : (sched, avail, c) = st' := by simpa using h
      simpa using hInv
  | succ n ih =>
      intro i sched avail c st' h hInv hle
      rw [passSteps] at h
      cases hs : stepA p cpru rng (sched, avail, c) with
      | none => rw [hs] at h; simp at h
      | some st1 =>
          rw [hs] at h
          simp only at h
          have hnj : 2 ≤ p.njobs := hwf.njobs2
          have hInv1 : InvS p (i + 1) st1.1 st1.2.1 :=
            stepA_inv p hwf cpru rng hrng hcpru hInv (by omega) hs
          have h' : passSteps p cpru rng n (st1.1, st1.2.1, st1.2.2) = some st' := by
            simpa using h
          have := ih h' hInv1 (by omega)
          have harith : i + 1 + n = i + (n + 1) := by omega
          rw [harith] at this
          exact this

theorem invS_complete (p : Problem) {sched : List ℤ} {avail : List (List ℤ)}
    (hInv : InvS p (p.njobs - 1) sched avail) (hn : 1 ≤ p.njobs) :
    ∀ j < p.njobs, 0 ≤ sched.getD j 0 := by
  have hcard : ((Finset.range p.njobs).filter (fun j => 0 ≤ sched.getD j 0)).card =
      p.njobs := by
    rw [hInv.count]
    omega
  have heq : (Finset.range p.njobs).filter (fun j => 0 ≤ sched.getD j 0) =
      Finset.range p.njobs := by
    apply Finset.eq_of_subset_of_card_le (Finset.filter_subset _ _)
    rw [hcard, Finset.card_range]
  intro j hj
  have : j ∈ (Finset.range p.njobs).filter (fun j => 0 ≤ sched.getD j 0) := by
    rw [heq]
    exact Finset.mem_range.mpr hj
  exact (Finset.mem_filter.mp this).2

/-- Every completed tournament pass yields a precedence- and
resource-feasible complete schedule within the horizon. -/
theorem passRun_good (p : Problem) (hwf : WellFormed p) (cpru : List D) (rng : ℕ → ℚ)
    (hrng : rngOk rng) (hcpru : cpruOk p cpru) {c : ℕ} {sched : List ℤ} {c' : ℕ}
    (h : passRun p cpru rng c = some (sched, c')) : goodOut p sched := by
  unfold passRun at h
  cases hps : passSteps p cpru rng (p.njobs - 1) (schedInit p, availInit p, c) with
  | none => rw [hps] at h; simp at h
  | some st =>
      rw [hps] at h
      simp only [Option.some.injEq, Prod.mk.injEq] at h
      obtain ⟨rfl, -⟩ := h
      have hnj : 2 ≤ p.njobs := hwf.njobs2
      have hInv : InvS p (0 + (p.njobs - 1)) st.1 st.2.1 :=
        passSteps_inv p hwf cpru rng hrng hcpru (p.njobs - 1) hps
          (invS_init p hwf c) (by omega)
      rw [show 0 + (p.njobs - 1) = p.njobs - 1 from by omega] at hInv
      have hcompl := invS_complete p hInv (by omega)
      have hbnd : ∀ j < p.njobs, 0 ≤ st.1.getD j 0 ∧ st.1.getD j 0 ≤ (p.horizon : ℤ) := by
        intro j hj
        rcases hInv.bounds j hj with h1 | ⟨h1, h2⟩
        · exfalso
          have := hcompl j hj
          omega
        · refine ⟨?_, h2⟩
          have : (0:ℤ) ≤ (p.durations j : ℤ) := by positivity
          omega
      refine ⟨?_, ?_, ?_, hbnd⟩
      · intro j hj q hq
        exact (hInv.prec j hj (hcompl j hj) q hq).2
      · intro k hk t ht
        have h1 := hInv.aeq k hk t ht
        have h2 := hInv.ann k hk t ht
        omega
      · exact hInv.src

theorem copyOut_aux_getD (sched : List ℤ) :
    ∀ (m : ℕ) (out : List ℤ),
      ((List.range m).foldl (fun o i => o.set i (sched.getD i 0)) out).length = out.length ∧
      ∀ j, ((List.range m).foldl (fun o i => o.set i (sched.getD i 0)) out).getD j 0 =
        if j < m ∧ j < out.length then sched.getD j 0 else out.getD j 0 := by
  intro m
  induction m with
  | zero =>
      intro out
      refine ⟨rfl, fun j => ?_⟩
      simp
  | succ m ih =>
      intro out
      rw [List.range_succ, List.foldl_append]
      obtain ⟨ihlen, ihget⟩ := ih out
      simp only [List.foldl_cons, List.foldl_nil]
      constructor
      · rw [List.length_set]
        exact ihlen
      · intro j
        by_cases hjm : j = m
        · subst hjm
          by_cases hjl : j < out.length
          · rw [getD_set_self (by rw [ihlen]; exact hjl), if_pos ⟨by omega, hjl⟩]
          · rw [List.set_eq_of_length_le (by rw [ihlen]; omega), ihget j,
              if_neg (by omega), if_neg (by omega)]
        · rw [getD_set_ne (fun he => hjm he.symm), ihget j]
          by_cases hj1 : j < m ∧ j < out.length
          · rw [if_pos hj1, if_pos ⟨by omega, hj1.2⟩]
          · rw [if_neg hj1, if_neg (by omega)]

theorem copyOut_getD (p : Problem) (sched out : List ℤ) (hlen : p.njobs ≤ out.length)
    {j : ℕ} (hj : j < p.njobs) :
    (copyOut p sched out).getD j 0 = sched.getD j 0 := by
  unfold copyOut
  rw [(copyOut_aux_getD sched p.njobs out).2 j, if_pos ⟨hj, by omega⟩]

theorem copyOut_length (p : Problem) (sched out : List ℤ) :
    (copyOut p sched out).length = out.length :=
  (copyOut_aux_getD sched p.njobs out).1

theorem goodOut_copyOut (p : Problem) (hwf : WellFormed p) (sched out : List ℤ)
    (hlen : p.njobs ≤ out.length) (h : goodOut p sched) :
    goodOut p (copyOut p sched out) := by
  obtain ⟨h1, h2, h3, h4⟩ := h
  have hnj : 1 ≤ p.njobs := le_trans (by norm_num) hwf.njobs2
  refine ⟨?_, ?_, ?_, ?_⟩
  · intro j hj q hq
    rw [copyOut_getD p sched out hlen hj,
      copyOut_getD p sched out hlen (hwf.predIdx j hj q hq)]
    exact h1 j hj q hq
  · intro k hk t ht
    have hsum : consumedSum p (copyOut p sched out) k t = consumedSum p sched k t := by
      unfold consumedSum
      apply Finset.sum_congr rfl
      intro j hj
      rw [copyOut_getD p sched out hlen (Finset.mem_range.mp hj)]
    rw [hsum]
    exact h2 k hk t ht
  · rw [copyOut_getD p sched out hlen (by omega)]
    exact h3
  · intro j hj
    rw [copyOut_getD p sched out hlen hj]
    exact h4 j hj

/-- The loop over passes: if the final return value is `true` then the
`out` buffer holds a feasible complete schedule. -/
theorem passesLoop_good (p : Problem) (hwf : WellFormed p) (cpru : List D) (rng : ℕ → ℚ)
    (hrng : rngOk rng) (hcpru : cpruOk p cpru) :
    ∀ (n c : ℕ) (best : ℤ) (out : List ℤ),
      p.njobs ≤ out.length →
      ((p.horizon : ℤ) < best ∨ goodOut p out) →
      (passesLoop p cpru rng n c best out).1 = true →
      goodOut p (passesLoop p cpru rng n c best out).2 ∧
        p.njobs ≤ (passesLoop p cpru rng n c best out).2.length := by
  intro n
  induction n with
  | zero =>
      intro c best out hlen hdisj htrue
      rw [passesLoop] at htrue ⊢
      simp only [decide_eq_true_eq] at htrue
      rcases hdisj with h | h
      · exfalso; omega
      · exact ⟨h, hlen⟩
  | succ n ih =>
      intro c best out hlen hdisj htrue
      rw [passesLoop] at htrue ⊢
      cases hp : passRun p cpru rng c with
      | none =>
          rw [hp] at htrue
          simp at htrue
      | some res =>
          obtain ⟨sched, c'⟩ := res
          rw [hp] at htrue
          simp only at htrue ⊢
          have hgood := passRun_good p hwf cpru rng hrng hcpru hp
          by_cases hlt : sched.getD (p.njobs - 1) 0 < best
          · rw [if_pos hlt] at htrue ⊢
            refine ih c' _ _ (by rw [copyOut_length]; exact hlen) ?_ htrue
            exact Or.inr (goodOut_copyOut p hwf sched out hlen hgood)
          · rw [if_neg hlt] at htrue ⊢
            exact ih c' best out hlen hdisj htrue

/-- The pass loop returns `true` iff all passes complete and either the
initial best or some pass's makespan is within the horizon. -/
theorem passesLoop_true_iff (p : Problem) (cpru : List D) (rng : ℕ → ℚ) :
    ∀ (n c : ℕ) (best : ℤ) (out : List ℤ),
      (passesLoop p cpru rng n c best out).1 = true ↔
        (PassesComplete p cpru rng c n ∧
          (best ≤ (p.horizon : ℤ) ∨ SomePassLe p cpru rng c n)) := by
  intro n
  induction n with
  | zero =>
      intro c best out
      rw [passesLoop]
      simp [PassesComplete, SomePassLe]
  | succ n ih =>
      intro c best out
      rw [passesLoop]
      cases hp : passRun p cpru rng c with
      | none =>
          simp only [PassesComplete, SomePassLe, hp]
          simp
      | some res =>
          obtain ⟨sched, c'⟩ := res
          simp only [PassesComplete, SomePassLe, hp]
          by_cases hlt : sched.getD (p.njobs - 1) 0 < best
          · rw [if_pos hlt, ih]
            constructor
            · rintro ⟨h1, h2 | h2⟩
              · exact ⟨h1, Or.inr (Or.inl (by omega))⟩
              · exact ⟨h1, Or.inr (Or.inr h2)⟩
            · rintro ⟨h1, h2 | (h2 | h2)⟩
              · exact ⟨h1, Or.inl (by omega)⟩
              · exact ⟨h1, Or.inl h2⟩
              · exact ⟨h1, Or.inr h2⟩
          · rw [if_neg hlt, ih]
            constructor
            · rintro ⟨h1, h2 | h2⟩
              · exact ⟨h1, Or.inl h2⟩
              · exact ⟨h1, Or.inr (Or.inr h2)⟩
            · rintro ⟨h1, h2 | (h2 | h2)⟩
              · exact ⟨h1, Or.inl h2⟩
              · exact ⟨h1, Or.inl (by omega)⟩
              · exact ⟨h1, Or.inr h2⟩

theorem decLoop_abort {check : ℤ → Bool} {fuel : ℕ} {s : ℤ}
    (h : decLoop check fuel s = some none) :
    ∃ f, f ≤ s ∧ f < 0 := by
  induction fuel generalizing s with
  | zero => simp [decLoop] at h
  | succ fuel ih =>
      rw [decLoop] at h
      by_cases hc : check s
      · simp only [hc, if_true] at h
        by_cases hneg : s < 0
        · exact ⟨s, le_refl _, hneg⟩
        · simp [hneg] at h
      · simp only [hc, if_false] at h
        by_cases hneg : s - 1 < 0
        · exact ⟨s - 1, by omega, hneg⟩
        · simp only [hneg, if_false] at h
          obtain ⟨f, hf1, hf2⟩ := ih h
          exact ⟨f, by omega, hf2⟩

theorem wfW2 : WellFormed W2 := by
  refine ⟨by decide, by decide, by decide, rfl, rfl, rfl, by decide, by decide, by decide,
    ⟨id, by decide⟩, ?_, ?_⟩
  · intro j hj
    have hj2 : j < 2 := hj
    interval_cases j
    · exact ReachS.refl 0
    · exact ReachS.step (show 1 ∈ W2.succList 0 by decide) (ReachS.refl 1)
  · intro j hj
    have hj2 : j < 2 := hj
    interval_cases j
    · exact ReachP.step (show 0 ∈ W2.predecessors 1 by decide) (ReachP.refl 0)
    · exact ReachP.refl 1

theorem wfQ3 : WellFormed Q3 := by
  refine ⟨by decide, by decide, by decide, rfl, rfl, rfl, by decide, by decide, by decide,
    ⟨id, by decide⟩, ?_, ?_⟩
  · intro j hj
    have hj2 : j < 3 := hj
    interval_cases j
    · exact ReachS.refl 0
    · exact ReachS.step (show 1 ∈ Q3.succList 0 by decide) (ReachS.refl 1)
    · exact ReachS.step (show 1 ∈ Q3.succList 0 by decide)
        (ReachS.step (show 2 ∈ Q3.succList 1 by decide) (ReachS.refl 2))
  · intro j hj
    have hj2 : j < 3 := hj
    interval_cases j
    · exact ReachP.step (show 1 ∈ Q3.predecessors 2 by decide)
        (ReachP.step (show 0 ∈ Q3.predecessors 1 by decide) (ReachP.refl 0))
    · exact ReachP.step (show 1 ∈ Q3.predecessors 2 by decide) (ReachP.refl 1)
    · exact ReachP.refl 2

theorem rng0_ok : rngOk rng0 := fun _ => ⟨le_refl 0, by norm_num [rng0]⟩

unseal Rat.add Rat.mul Rat.inv Rat.sub in
theorem cpruW_eq : cpruW = [D.fin 0, D.fin 0] := by decide

theorem cpruW_ok : cpruOk W2 cpruW := by
  intro j hj
  rw [cpruW_eq]
  have hj2 : j < 2 := hj
  interval_cases j <;> exact Or.inr ⟨0, rfl, le_refl 0⟩

unseal Rat.add Rat.mul Rat.inv Rat.sub in
theorem selW (rng : ℕ → ℚ) (h : ∀ i, rng i = 0) (c : ℕ) :
    selectedList rng c (eligibleList W2 (schedInit W2)) = [1, 1] := by
  have e : selectedList rng c (eligibleList W2 (schedInit W2)) =
      [[1].getD (choiceIdx (rng (c + 0)) 1) 0, [1].getD (choiceIdx (rng (c + 1)) 1) 0] := rfl
  rw [e, h (c + 0), h (c + 1)]
  decide

unseal Rat.add Rat.mul Rat.inv Rat.sub in
theorem stepAW (rng : ℕ → ℚ) (h : ∀ i, rng i = 0) (c : ℕ) :
    stepA W2 cpruW rng (schedInit W2, availInit W2, c) = some ([0, 0], [], c + 2) := by
  simp only [stepA]
  rw [selW rng h c]
  rfl

theorem passRunW (rng : ℕ → ℚ) (h : ∀ i, rng i = 0) (c : ℕ) :
    passRun W2 cpruW rng c = some ([0, 0], c + 2) := by
  simp only [passRun, passSteps]
  rw [stepAW rng h c]

theorem passesLoopW (rng : ℕ → ℚ) (h : ∀ i, rng i = 0) :
    ∀ n c, passesLoop W2 cpruW rng n c 0 [0, 0] = (true, [0, 0]) := by
  intro n
  induction n with
  | zero => intro c; rfl
  | succ m ih =>
      intro c
      rw [passesLoop, passRunW rng h c]
      simpa using ih (c + 2)

unseal Rat.add Rat.mul Rat.inv Rat.sub in
theorem solveW (rng : ℕ → ℚ) (h : ∀ i, rng i = 0) :
    solveModel W2 rng ru0W [9, 9] 20 = some (true, [0, 0]) := by
  show some (passesLoop W2 cpruW rng NPASSES 0 bestInit [9, 9]) = some (true, [0, 0])
  have hloop : passesLoop W2 cpruW rng NPASSES 0 bestInit [9, 9] = (true, [0, 0]) := by
    rw [show (NPASSES : ℕ) = 999 + 1 from rfl, passesLoop, passRunW rng h 0]
    show passesLoop W2 cpruW rng 999 2 0 [0, 0] = (true, [0, 0])
    exact passesLoopW rng h 999 2
  rw [hloop]

/-! ### Claim theorems -/
theorem solveModel_eq_passes (p : Problem) (rng : ℕ → ℚ) (ru0 : List D) (out0 : List ℤ)
    (fuel : ℕ) {ef ls : List ℤ} {ru : List D}
    (hef : efBfs p fuel [0] (List.replicate p.njobs 0) = some (some ef))
    (hls : lsBfs p fuel [p.njobs - 1] (List.replicate p.njobs (p.horizon : ℤ)) =
      some (some ls))
    (hru : ruBfs p ef ls fuel [p.njobs - 1] ru0 = some ru) :
    solveModel p rng ru0 out0 fuel =
      some (passesLoop p (cpruArr p ls ru) rng NPASSES 0 bestInit out0) := by
  simp only [solveModel, hef, hls, hru]

theorem horizon_lt_bestInit {p : Problem} (h : p.horizon < 1073741823) :
    (p.horizon : ℤ) < bestInit := by
  unfold bestInit
  exact_mod_cast h

/-- C1: for every Found result of `PrSolver::solve` (a run of the model
`solveModel` returning `true`), the finish times written to the `out`
buffer satisfy `out[q] ≤ out[j] - durations[j]` for every predecessor
`q` of every activity `j`: no activity starts before all its
predecessors have finished.  The run's preprocessing results
(`ef`, `ls`, `ru`) are named by hypotheses, the problem is well-formed,
the rng draws lie in `[0,1)`, the computed CPRU priorities are usable
values, and the caller's buffer is large enough. -/
theorem c1_found_precedence_feasible (p : Problem) (hwf : WellFormed p)
    (rng : ℕ → ℚ) (hrng : rngOk rng) (ru0 : List D) (out0 : List ℤ) (fuel : ℕ)
    (ef ls : List ℤ) (ru : List D) (out : List ℤ)
    (hef : efBfs p fuel [0] (List.replicate p.njobs 0) = some (some ef))
    (hls : lsBfs p fuel [p.njobs - 1] (List.replicate p.njobs (p.horizon : ℤ)) =
      some (some ls))
    (hru : ruBfs p ef ls fuel [p.njobs - 1] ru0 = some ru)
    (hcpru : cpruOk p (cpruArr p ls ru))
    (hout0 : p.njobs ≤ out0.length)
    (hrun : solveModel p rng ru0 out0 fuel = some (true, out)) :
    precOK p out := by
  rw [solveModel_eq_passes p rng ru0 out0 fuel hef hls hru] at hrun
  have hpair := Option.some.inj hrun
  have h1 : (passesLoop p (cpruArr p ls ru) rng NPASSES 0 bestInit out0).1 = true := by
    rw [hpair]
  have h2 : (passesLoop p (cpruArr p ls ru) rng NPASSES 0 bestInit out0).2 = out := by
    rw [hpair]
  have hg := passesLoop_good p hwf (cpruArr p ls ru) rng hrng hcpru NPASSES 0 bestInit out0
    hout0 (Or.inl (horizon_lt_bestInit hwf.horBound)) h1
  rw [h2] at hg
  exact hg.1.1

unseal Rat.add Rat.mul Rat.inv Rat.sub in
theorem c1_witness : precOK W2 [0, 0] :=
  c1_found_precedence_feasible W2 wfW2 rng0 rng0_ok ru0W [9, 9] 20 [0, 0] [1, 1]
    [D.fin 0, D.fin 0] [0, 0] (by decide) (by decide) (by decide) cpruW_ok (by decide)
    (solveW rng0 (fun _ => rfl))

/-- C2: for every Found result of `PrSolver::solve`, for every resource
`k` and every period `t < horizon`, the total demand of the activities
active at `t` under the returned finish times — the sum of
`requests[j][k][t - (out[j] - durations[j])]` over the `j` whose
execution window covers `t` (`consumedSum`) — does not exceed
`capacities[k][t]`: the returned schedule never overcommits a
resource. -/
theorem c2_found_resource_feasible (p : Problem) (hwf : WellFormed p)
    (rng : ℕ → ℚ) (hrng : rngOk rng) (ru0 : List D) (out0 : List ℤ) (fuel : ℕ)
    (ef ls : List ℤ) (ru : List D) (out : List ℤ)
    (hef : efBfs p fuel [0] (List.replicate p.njobs 0) = some (some ef))
    (hls : lsBfs p fuel [p.njobs - 1] (List.replicate p.njobs (p.horizon : ℤ)) =
      some (some ls))
    (hru : ruBfs p ef ls fuel [p.njobs - 1] ru0 = some ru)
    (hcpru : cpruOk p (cpruArr p ls ru))
    (hout0 : p.njobs ≤ out0.length)
    (hrun : solveModel p rng ru0 out0 fuel = some (true, out)) :
    resOK p out := by
  rw [solveModel_eq_passes p rng ru0 out0 fuel hef hls hru] at hrun
  have hpair := Option.some.inj hrun
  have h1 : (passesLoop p (cpruArr p ls ru) rng NPASSES 0 bestInit out0).1 = true := by
    rw [hpair]
  have h2 : (passesLoop p (cpruArr p ls ru) rng NPASSES 0 bestInit out0).2 = out := by
    rw [hpair]
  have hg := passesLoop_good p hwf (cpruArr p ls ru) rng hrng hcpru NPASSES 0 bestInit out0
    hout0 (Or.inl (horizon_lt_bestInit hwf.horBound)) h1
  rw [h2] at hg
  exact hg.1.2.1

unseal Rat.add Rat.mul Rat.inv Rat.sub in
theorem c2_witness : resOK W2 [0, 0] :=
  c2_found_resource_feasible W2 wfW2 rng0 rng0_ok ru0W [9, 9] 20 [0, 0] [1, 1]
    [D.fin 0, D.fin 0] [0, 0] (by decide) (by decide) (by decide) cpruW_ok (by decide)
    (solveW rng0 (fun _ => rfl))

/-- C3 (amended): the return value of `PrSolver::solve` is `true` iff
*all* 1000 tournament passes complete (no placement ran past the
horizon) *and* at least one pass produced a schedule with makespan
`≤ horizon`.  The original claim's "iff at least one pass produced a
valid schedule" fails: a later pass that aborts makes the whole call
return `false` even when an earlier pass already produced a valid
schedule (see the counterexample). -/
theorem c3_found_iff_passes (p : Problem) (rng : ℕ → ℚ) (ru0 : List D) (out0 : List ℤ)
    (fuel : ℕ) (ef ls : List ℤ) (ru : List D) (b : Bool) (out : List ℤ)
    (hhor : p.horizon < 1073741823)
    (hef : efBfs p fuel [0] (List.replicate p.njobs 0) = some (some ef))
    (hls : lsBfs p fuel [p.njobs - 1] (List.replicate p.njobs (p.horizon : ℤ)) =
      some (some ls))
    (hru : ruBfs p ef ls fuel [p.njobs - 1] ru0 = some ru)
    (hrun : solveModel p rng ru0 out0 fuel = some (b, out)) :
    b = true ↔
      (PassesComplete p (cpruArr p ls ru) rng 0 NPASSES ∧
        SomePassLe p (cpruArr p ls ru) rng 0 NPASSES) := by
  rw [solveModel_eq_passes p rng ru0 out0 fuel hef hls hru] at hrun
  have hpair := Option.some.inj hrun
  have hb : (passesLoop p (cpruArr p ls ru) rng NPASSES 0 bestInit out0).1 = b := by
    rw [hpair]
  rw [← hb, passesLoop_true_iff p (cpruArr p ls ru) rng NPASSES 0 bestInit out0]
  have hbig := horizon_lt_bestInit hhor
  constructor
  · rintro ⟨h1, h2 | h2⟩
    · exact absurd h2 (by omega)
    · exact ⟨h1, h2⟩
  · rintro ⟨h1, h2⟩
    exact ⟨h1, Or.inr h2⟩

unseal Rat.add Rat.mul Rat.inv Rat.sub in
theorem c3_witness :
    PassesComplete W2 (cpruArr W2 [1, 1] [D.fin 0, D.fin 0]) rng0 0 NPASSES ∧
      SomePassLe W2 (cpruArr W2 [1, 1] [D.fin 0, D.fin 0]) rng0 0 NPASSES :=
  (c3_found_iff_passes W2 rng0 ru0W [9, 9] 20 [0, 0] [1, 1] [D.fin 0, D.fin 0] true [0, 0]
    (by decide) (by decide) (by decide) (by decide) (solveW rng0 (fun _ => rfl))).mp rfl

unseal Rat.add Rat.mul Rat.inv Rat.sub in
/-- C3 counterexample: on the diamond instance `DI` with the rng stream
`rngC3`, the first tournament pass completes with the precedence- and
resource-feasible schedule `[0, 2, 1, 2]` of makespan `2 = horizon`,
yet the whole run returns `false` because the second pass aborts (its
placement of activity 2 runs past the horizon).  So "returns true iff
at least one pass produced a valid schedule with makespan ≤ horizon"
is false. -/
theorem c3_counterexample :
    solveModel DI rngC3 (List.replicate 4 (D.fin 0)) [9, 9, 9, 9] 40 =
      some (false, [0, 2, 1, 2]) ∧
    efBfs DI 40 [0] (List.replicate DI.njobs 0) = some (some [0, 1, 1, 1]) ∧
    lsBfs DI 40 [DI.njobs - 1] (List.replicate DI.njobs (DI.horizon : ℤ)) =
      some (some [0, 1, 0, 2]) ∧
    ruBfs DI [0, 1, 1, 1] [0, 1, 0, 2] 40 [DI.njobs - 1] (List.replicate 4 (D.fin 0)) =
      some [D.fin 0, D.fin (2/15), D.fin (2/5), D.fin 0] ∧
    passRun DI (cpruArr DI [0, 1, 0, 2] [D.fin 0, D.fin (2/15), D.fin (2/5), D.fin 0])
      rngC3 0 = some ([0, 2, 1, 2], 6) ∧
    passRun DI (cpruArr DI [0, 1, 0, 2] [D.fin 0, D.fin (2/15), D.fin (2/5), D.fin 0])
      rngC3 6 = none ∧
    precOK DI [0, 2, 1, 2] ∧ resOK DI [0, 2, 1, 2] ∧
    ([0, 2, 1, 2] : List ℤ).getD (DI.njobs - 1) 0 ≤ (DI.horizon : ℤ) := by
  refine ⟨by decide, by decide, by decide, by decide, by decide, by decide,
    by unfold precOK; decide, by unfold resOK consumedSum; decide, by decide⟩

unseal Rat.add Rat.mul Rat.inv Rat.sub in
/-- C4: the claim's recursive utilisation formula
`ru[j] = ω₁·(nsuccessors/nresources)·(demand/availability) + ω₂·Σ over
s ∈ successors(j) of ru[s]` does not hold of the code: the source's
accumulation loop reads `ru[i]` for the loop *index* `i <
nsuccessors[job]` instead of `ru[successors[job][i]]`.  On the chain
`Q4` (with the `ru` buffer zeroed), the pass computes `ru[1] = 0`,
while the claim's right-hand side (`ruSpecRhs`, summing over the
successor *ids*) evaluates on the same inputs to `3/50`. -/
theorem c4_index_conflation :
    efBfs Q4 40 [0] (List.replicate Q4.njobs 0) = some (some [0, 1, 2, 2]) ∧
    lsBfs Q4 40 [Q4.njobs - 1] (List.replicate Q4.njobs (Q4.horizon : ℤ)) =
      some (some [3, 3, 4, 5]) ∧
    ruBfs Q4 [0, 1, 2, 2] [3, 3, 4, 5] 40 [Q4.njobs - 1] (List.replicate 4 (D.fin 0)) =
      some [D.fin 0, D.fin 0, D.fin (1/10), D.fin 0] ∧
    ruSpecRhs Q4 [0, 1, 2, 2] [3, 3, 4, 5] [D.fin 0, D.fin 0, D.fin (1/10), D.fin 0] 1 =
      D.fin (3/50) ∧
    ([D.fin 0, D.fin 0, D.fin (1/10), D.fin 0].getD 1 D.nan) ≠ D.fin (3/50) := by
  refine ⟨by decide, by decide, by decide, by decide, by decide⟩

/-- C5 (amended): after the utilisation pass every entry of `ru` is
non-NaN and non-negative — the final clamp of each visit replaces NaN
or negative values by `0`, and every activity reachable from the sink
along predecessor edges is visited.  The original claim's "finite"
fails: `+∞` survives the clamp (see the counterexample). -/
theorem c5_ru_clamped_nonnegative (p : Problem) (hwf : WellFormed p) (fuel : ℕ)
    (ef ls : List ℤ) (ru0 ru : List D) (hlen : ru0.length = p.njobs)
    (hru : ruBfs p ef ls fuel [p.njobs - 1] ru0 = some ru) :
    ∀ j < p.njobs, (ru.getD j D.nan).isNan = false ∧ (ru.getD j D.nan).isNeg = false := by
  intro j hj
  have hnj : 2 ≤ p.njobs := hwf.njobs2
  exact ruBfs_reach hwf.predIdx hru hlen
    (by intro x hx; simp only [List.mem_singleton] at hx; omega)
    j ⟨p.njobs - 1, List.mem_singleton.mpr rfl, hwf.reachP j hj⟩

unseal Rat.add Rat.mul Rat.inv Rat.sub in
theorem c5_witness :
    (([D.fin 0, D.inf, D.fin 0].getD 1 D.nan).isNan = false) ∧
      (([D.fin 0, D.inf, D.fin 0].getD 1 D.nan).isNeg = false) :=
  c5_ru_clamped_nonnegative Q3 wfQ3 30 [0, 1, 1] [2, 2, 3] [D.inf, D.fin 0, D.fin 0]
    [D.fin 0, D.inf, D.fin 0] (by decide) (by decide) 1 (by decide)

unseal Rat.add Rat.mul Rat.inv Rat.sub in
/-- C5 counterexample: `ru[j]` need not be *finite*.  On the chain `Q3`
with the uninitialised `ru` buffer holding `+∞` at index 0, the pass's
index-conflated accumulation adds `ω₂ · ru[0] = +∞` into `ru[1]`;
`+∞` is neither NaN nor negative, so the clamp keeps it, and the final
`ru[1]` is not finite.  (`ef = [0,1,1]` and `ls = [2,2,3]` are the
actual preprocessing results of `Q3`.) -/
theorem c5_counterexample :
    efBfs Q3 30 [0] (List.replicate Q3.njobs 0) = some (some [0, 1, 1]) ∧
    lsBfs Q3 30 [Q3.njobs - 1] (List.replicate Q3.njobs (Q3.horizon : ℤ)) =
      some (some [2, 2, 3]) ∧
    ruBfs Q3 [0, 1, 1] [2, 2, 3] 30 [Q3.njobs - 1] [D.inf, D.fin 0, D.fin 0] =
      some [D.fin 0, D.inf, D.fin 0] ∧
    (([D.fin 0, D.inf, D.fin 0] : List D).getD 1 D.nan).isFin = false := by
  refine ⟨by decide, by decide, by decide, by decide⟩

/-- C6: for a well-formed problem (zero-duration source `0` reaching
every activity along successor edges, zero-duration sink `njobs - 1`
reaching every activity along predecessor edges), whenever the two
preprocessing passes complete, every activity `j` satisfies
`durations[j] ≤ ef[j]` and `ls[j] + durations[j] ≤ horizon`. -/
theorem c6_preprocessing_bounds (p : Problem) (hwf : WellFormed p) (fuel : ℕ)
    (ef ls : List ℤ)
    (hef : efBfs p fuel [0] (List.replicate p.njobs 0) = some (some ef))
    (hls : lsBfs p fuel [p.njobs - 1] (List.replicate p.njobs (p.horizon : ℤ)) =
      some (some ls)) :
    ∀ j < p.njobs, (p.durations j : ℤ) ≤ ef.getD j 0 ∧
      ls.getD j 0 + (p.durations j : ℤ) ≤ (p.horizon : ℤ) := by
  have hnj : 2 ≤ p.njobs := hwf.njobs2
  intro j hj
  constructor
  · refine efBfs_reach hwf.succIdx hef (by simp) ?_ ?_ j
      ⟨0, List.mem_singleton.mpr rfl, hwf.reachS j hj⟩
    · intro x hx
      simp only [List.mem_singleton] at hx
      omega
    · intro x hx
      simp only [List.mem_singleton] at hx
      subst hx
      rw [hwf.srcDur]
      simp [List.getD, List.getElem?_replicate, show 0 < p.njobs from by omega]
  · refine lsBfs_reach hwf.predIdx hls (by simp) ?_ ?_ j
      ⟨p.njobs - 1, List.mem_singleton.mpr rfl, hwf.reachP j hj⟩
    · intro x hx
      simp only [List.mem_singleton] at hx
      omega
    · intro x hx
      simp only [List.mem_singleton] at hx
      subst hx
      rw [hwf.sinkDur]
      simp [List.getD, List.getElem?_replicate, show p.njobs - 1 < p.njobs from by omega]

theorem c6_witness :
    (Q3.durations 1 : ℤ) ≤ ([0, 1, 1] : List ℤ).getD 1 0 ∧
      ([2, 2, 3] : List ℤ).getD 1 0 + (Q3.durations 1 : ℤ) ≤ (Q3.horizon : ℤ) :=
  c6_preprocessing_bounds Q3 wfQ3 30 [0, 1, 1] [2, 2, 3] (by decide) (by decide) 1 (by decide)

/-- C7 (amended): in each scheduling step, the initial candidate finish
of the winner is the fold of lines 229-233: when the winner has
predecessors (all scheduled, so their finish times are `≥ 0`), it is
the maximum over them of `schedule[q] + durations[winner]`; when the
winner has *no* predecessors it is `-1`, not `durations[winner]` as the
original claim states (see the counterexample).  The candidate is then
advanced by 1 while resource-infeasible: a successful placement `v` is
the least feasible finish `≥` the initial candidate. -/
theorem c7_initial_finish (p : Problem) (sched : List ℤ) (w : ℕ)
    (hsched : ∀ q ∈ p.predecessors w, 0 ≤ sched.getD q 0) :
    (p.predecessors w = [] → initFinish p sched w = -1) ∧
    (p.predecessors w ≠ [] →
      ∃ q ∈ p.predecessors w, initFinish p sched w = sched.getD q 0 + (p.durations w : ℤ) ∧
        ∀ q' ∈ p.predecessors w,
          sched.getD q' 0 + (p.durations w : ℤ) ≤ initFinish p sched w) ∧
    (∀ (check : ℤ → Bool) (hz fuel : ℕ) (s v : ℤ),
      advLoop check hz fuel s = some (some v) →
      s ≤ v ∧ check v = true ∧ ∀ f, s ≤ f → f < v → check f = false) := by
  refine ⟨initFinish_nil p sched w, fun hne => initFinish_max p sched w hne hsched, ?_⟩
  intro check hz fuel s v h
  obtain ⟨h1, h2, -, h4⟩ := advLoop_some h
  exact ⟨h1, h2, h4⟩

theorem c7_witness :
    ∃ q ∈ Q3.predecessors 2,
      initFinish Q3 [0, 1, 5] 2 = ([0, 1, 5] : List ℤ).getD q 0 + (Q3.durations 2 : ℤ) ∧
        ∀ q' ∈ Q3.predecessors 2,
          ([0, 1, 5] : List ℤ).getD q' 0 + (Q3.durations 2 : ℤ) ≤ initFinish Q3 [0, 1, 5] 2 :=
  (c7_initial_finish Q3 [0, 1, 5] 2 (by decide)).2.1 (by decide)

/-- C7 counterexample: for a winner without predecessors the code's
initial candidate is the fold's seed `-1`, not `durations[winner]`:
activity 1 of `P7` has no predecessors and duration 5, yet
`initFinish` yields `-1 ≠ 5`. -/
theorem c7_counterexample :
    P7.predecessors 1 = [] ∧ P7.durations 1 = 5 ∧
      initFinish P7 [0, 0] 1 = -1 ∧ initFinish P7 [0, 0] 1 ≠ (P7.durations 1 : ℤ) := by
  refine ⟨rfl, rfl, by decide, by decide⟩

/-- C8: one tournament draw sequence.  The sample has size
`Z = max(⌊0.5 · |eligible|⌋, 2)`; each of the `Z` draws reads
`eligible[(int)(r · |eligible|)]` for its own rng draw `r`, an
in-bounds index whenever `0 ≤ r < 1`, and `(int)(r · n)` partitions
`[0, 1)` uniformly: it equals `k` exactly when
`k/n ≤ r < (k+1)/n`.  The winner scan keeps the sampled activity with
the highest `cpru`, ties broken in favour of the *later* occurrence in
sample order (the scan uses `≥`): some sample index `i` attains the
winner, its `cpru` is `≥` every sampled `cpru`, and no strictly later
sample's `cpru` is `≥` the winner's. -/
theorem c8_tournament_sampling (elig : List ℕ) (cpru : List D) (rng : ℕ → ℚ) (c : ℕ)
    (hrng : rngOk rng) (hne : elig ≠ [])
    (hok : ∀ s ∈ selectedList rng c elig, okPri (cpru.getD s D.nan)) :
    (selectedList rng c elig).length = max (elig.length / 2) 2 ∧
    (∀ i < max (elig.length / 2) 2,
      (selectedList rng c elig).getD i 0 =
        elig.getD (choiceIdx (rng (c + i)) elig.length) 0 ∧
      choiceIdx (rng (c + i)) elig.length < elig.length) ∧
    (∀ k < elig.length, ∀ r : ℚ, 0 ≤ r →
      (choiceIdx r elig.length = k ↔
        ((k : ℚ) / elig.length ≤ r ∧ r < ((k : ℚ) + 1) / elig.length))) ∧
    (∃ i < (selectedList rng c elig).length,
      (scanWinner cpru (selectedList rng c elig)).1 =
        (((selectedList rng c elig).getD i 0 : ℕ) : ℤ) ∧
      (∀ k < (selectedList rng c elig).length,
        (cpru.getD ((selectedList rng c elig).getD i 0) D.nan).dge
          (cpru.getD ((selectedList rng c elig).getD k 0) D.nan) = true) ∧
      (∀ k < (selectedList rng c elig).length, i < k →
        (cpru.getD ((selectedList rng c elig).getD k 0) D.nan).dge
          (cpru.getD ((selectedList rng c elig).getD i 0) D.nan) = false)) := by
  have hlen1 : 1 ≤ elig.length := List.length_pos.mpr hne
  refine ⟨selectedList_length rng c elig, ?_, ?_, ?_⟩
  · intro i hi
    constructor
    · unfold selectedList
      exact getD_map_range_lt (tournSize elig.length) i _ 0 hi
    · exact choiceIdx_lt (hrng (c + i)).1 (hrng (c + i)).2 hlen1
  · intro k hk r h0
    exact choiceIdx_uniform h0 hk
  · obtain ⟨i, hi, heq, hmax, hlater⟩ :=
      scanWinner_spec cpru (selectedList rng c elig) (selectedList_ne rng c elig) hok
    exact ⟨i, hi, by rw [heq], hmax, hlater⟩

unseal Rat.add Rat.mul Rat.inv Rat.sub in
theorem c8_witness :
    (selectedList rng0 0 [1, 2]).length = max ([1, 2].length / 2) 2 := by
  have hsel : selectedList rng0 0 [1, 2] = [1, 1] := by decide
  refine (c8_tournament_sampling [1, 2] [D.fin 0, D.fin 1, D.fin 1] rng0 0 rng0_ok
    (by decide) ?_).1
  intro s hs
  rw [hsel] at hs
  have hs1 : s = 1 := by
    rcases List.mem_cons.mp hs with h | h
    · exact h
    · simpa using h
  subst hs1
  exact Or.inr ⟨1, rfl, by norm_num⟩

/-- C9: if the earliest-finish pass aborts (some `ef[j]` was pushed
past the horizon, `some none` in the model), or the latest-start pass
aborts (some `ls[j]` was pushed below 0), the whole solve returns
`false` at once with the caller's buffer untouched — for *every* rng
stream and buffer contents, so no tournament pass influences the
result.  The last two conjuncts tie the aborts to their causes: an
advance loop only aborts having reached a finish `> horizon`, a
decrement loop only aborts having reached a start `< 0`. -/
theorem c9_infeasible_abort (p : Problem) (fuel : ℕ) (rng : ℕ → ℚ) (ru0 : List D)
    (out0 : List ℤ) :
    (efBfs p fuel [0] (List.replicate p.njobs 0) = some none →
      solveModel p rng ru0 out0 fuel = some (false, out0)) ∧
    (∀ ef, efBfs p fuel [0] (List.replicate p.njobs 0) = some (some ef) →
      lsBfs p fuel [p.njobs - 1] (List.replicate p.njobs (p.horizon : ℤ)) = some none →
      solveModel p rng ru0 out0 fuel = some (false, out0)) ∧
    (∀ (check : ℤ → Bool) (s : ℤ), advLoop check p.horizon fuel s = some none →
      ∃ f, s ≤ f ∧ (p.horizon : ℤ) < f) ∧
    (∀ (check : ℤ → Bool) (s : ℤ), decLoop check fuel s = some none →
      ∃ f, f ≤ s ∧ f < 0) := by
  refine ⟨?_, ?_, ?_, ?_⟩
  · intro h
    simp only [solveModel, h]
  · intro ef hef hls
    simp only [solveModel, hef, hls]
  · intro check s h
    exact advLoop_abort h
  · intro check s h
    exact decLoop_abort h

theorem c9_witness :
    solveModel P9 rng0 [D.fin 0, D.fin 0, D.fin 0] [7, 7, 7] 30 = some (false, [7, 7, 7]) :=
  (c9_infeasible_abort P9 30 rng0 [D.fin 0, D.fin 0, D.fin 0] [7, 7, 7]).1 (by decide)

/-- C10: for a well-formed problem (in particular, acyclic precedence
with activity 0 reaching every activity), at every reachable state of
the scheduling loop of a pass — after `i < njobs - 1` of its
iterations, starting from the fresh schedule with only the source
placed — the eligible set is non-empty, and every tournament index
computed from an rng draw is strictly within its bounds: the
`eligible[choice]` read is in bounds. -/
theorem c10_eligible_nonempty (p : Problem) (hwf : WellFormed p) (cpru : List D)
    (rng : ℕ → ℚ) (hrng : rngOk rng) (hcpru : cpruOk p cpru) (c i : ℕ)
    (hi : i < p.njobs - 1) (st : List ℤ × List (List ℤ) × ℕ)
    (hst : passSteps p cpru rng i (schedInit p, availInit p, c) = some st) :
    eligibleList p st.1 ≠ [] ∧
      ∀ k, choiceIdx (rng (st.2.2 + k)) (eligibleList p st.1).length <
        (eligibleList p st.1).length := by
  have hnj : 2 ≤ p.njobs := hwf.njobs2
  have hInv : InvS p (0 + i) st.1 st.2.1 :=
    passSteps_inv p hwf cpru rng hrng hcpru i hst (invS_init p hwf c) (by omega)
  rw [Nat.zero_add] at hInv
  have hne := eligible_ne p hwf hInv (by omega)
  refine ⟨hne, fun k => ?_⟩
  exact choiceIdx_lt (hrng _).1 (hrng _).2 (List.length_pos.mpr hne)

theorem c10_witness :
    eligibleList W2 (schedInit W2) ≠ [] ∧
      ∀ k, choiceIdx (rng0 (0 + k)) (eligibleList W2 (schedInit W2)).length <
        (eligibleList W2 (schedInit W2)).length :=
  c10_eligible_nonempty W2 wfW2 cpruW rng0 rng0_ok cpruW_ok 0 0 (by decide)
    (schedInit W2, availInit W2, 0) rfl

end RCPSPT
